import Mathlib

/-!
Verification development for the pluggy template compiler and reactive runtime.

The definitions below are shallow embeddings of the TypeScript sources:
* `tokenize` / `lexRun` / `attrLoop` — `src/compiler/lexer.ts` (`tokenize`),
  fueled because the source `while` loop does not always advance its cursor;
* `parse` and friends — `src/compiler/parser.ts`;
* `optimize` — `src/compiler/transformer.ts` (the recursive text-merging pass);
* `generate` / `buildProps` — `src/compiler/codegen.ts` (the generation that the
  repository's test suite pins down: uppercase tags as component references);
* `compileCatch` / `fallbackExpr` — the `try`/`catch` wrapper of
  `src/compiler/compile.ts`;
* `execCmd` — the reactive core (`signal` / `batch`) of `src/runtime.ts`;
* `eachStep` — the keyed list reconciler `each` of `src/runtime.ts`.

Machine strings are `String`/`List Char`; JS objects with insertion-ordered keys
are association lists; the JS `Set` of distinct pending-flush closures is a list
with multiplicity.  Literal brace characters are spelled via `Char.ofNat`.
-/

/-- The character `{`. -/
def lbraceC : Char := Char.ofNat 123

/-- The character `}`. -/
def rbraceC : Char := Char.ofNat 125

/-- JS `\s` on the ASCII range: space, tab, newline, carriage return,
vertical tab, form feed. -/
def jsWS (c : Char) : Bool :=
  c = ' ' || c = '\t' || c = '\n' || c = '\r' || c = Char.ofNat 11 || c = Char.ofNat 12

/-- The lexer's identifier character class `[A-Za-z0-9:_-]`. -/
def isNameChar (c : Char) : Bool :=
  c.isAlpha || c.isDigit || c = ':' || c = '_' || c = '-'

/-- JS `String.prototype.trim` (ASCII whitespace). -/
def jsTrim (cs : List Char) : List Char :=
  ((cs.dropWhile jsWS).reverse.dropWhile jsWS).reverse

/-- Lower-case hex digit for `\u00XX` escapes. -/
def hexDig (n : Nat) : Char :=
  if n < 10 then Char.ofNat (48 + n) else Char.ofNat (87 + n)

/-- Escapes of `JSON.stringify` on string contents. -/
def jsonEsc : List Char → List Char
  | [] => []
  | c :: cs =>
    if c = '"' then '\\' :: '"' :: jsonEsc cs
    else if c = '\\' then '\\' :: '\\' :: jsonEsc cs
    else if c = '\n' then '\\' :: 'n' :: jsonEsc cs
    else if c = '\r' then '\\' :: 'r' :: jsonEsc cs
    else if c = '\t' then '\\' :: 't' :: jsonEsc cs
    else if c = Char.ofNat 8 then '\\' :: 'b' :: jsonEsc cs
    else if c = Char.ofNat 12 then '\\' :: 'f' :: jsonEsc cs
    else if c.toNat < 32 then
      '\\' :: 'u' :: '0' :: '0' :: hexDig (c.toNat / 16) :: hexDig (c.toNat % 16) :: jsonEsc cs
    else c :: jsonEsc cs

/-- `JSON.stringify` applied to a string. -/
def jsonQuote (s : String) : String :=
  String.mk ('"' :: (jsonEsc s.data ++ ['"']))

/-- `/[A-Za-z]/.test(src[i+1] || "")`: is the first character a letter? -/
def headIsAlpha (l : List Char) : Bool :=
  match l.head? with
  | some n => n.isAlpha
  | none => false

/-- Token type of `src/compiler/lexer.ts`. -/
inductive Tok where
  | tagOpen (name : String)
  | tagClose (name : String)
  | attrName (name : String)
  | attrValue (value : String)
  | exprOpen
  | exprClose
  | text (value : String)
  | eof
deriving Repr, DecidableEq

/-- The braced-attribute scanner of `tokenize` (lexer.ts lines 236-249):
consume characters tracking brace depth, stopping (without consuming) at the
closing brace that zeroes the depth, or at end of input.  Returns the consumed
content and the rest of the input. -/
def scanBraced : List Char → Nat → List Char × List Char
  | [], _ => ([], [])
  | c :: rest, d =>
    if c = lbraceC then
      let pr := scanBraced rest (d + 1)
      (c :: pr.1, pr.2)
    else if c = rbraceC then
      if d = 1 then ([], c :: rest)
      else
        let pr := scanBraced rest (d - 1)
        (c :: pr.1, pr.2)
    else
      let pr := scanBraced rest d
      (c :: pr.1, pr.2)

/-- The attribute sub-loop of `tokenize` (lexer.ts lines 205-263).  One fuel
unit per loop iteration; every iteration either breaks or consumes at least one
character, so fuel `length + 1` is always enough.  Note the source pushes
`attrName` a second time for a bare (valueless) attribute. -/
def attrLoop : Nat → List Char → List Tok → List Tok × List Char
  | 0, rem, out => (out, rem)
  | Nat.succ f, rem, out =>
    match rem with
    | [] => (out, [])
    | c :: rest =>
      if c = '>' ∨ c = '/' then (out, c :: rest)
      else if jsWS c then attrLoop f rest out
      else
        let attr := List.takeWhile isNameChar (c :: rest)
        if attr = [] then attrLoop f rest out
        else
          let out1 := out ++ [Tok.attrName (String.mk attr)]
          let rem1 := List.dropWhile isNameChar (c :: rest)
          match rem1 with
          | '=' :: rem2 =>
            match rem2 with
            | q :: rem3 =>
              if q = '"' ∨ q = '\'' then
                let content := List.takeWhile (fun ch => ch ≠ q) rem3
                let rem4 := List.dropWhile (fun ch => ch ≠ q) rem3
                let rem5 := match rem4 with
                  | q2 :: r => if q2 = q then r else q2 :: r
                  | [] => []
                attrLoop f rem5 (out1 ++ [Tok.attrValue (String.mk content)])
              else if q = lbraceC then
                let pr := scanBraced rem3 1
                let rem4 := match pr.2 with
                  | b :: r => if b = rbraceC then r else b :: r
                  | [] => []
                attrLoop f rem4 (out1 ++ [Tok.attrValue (String.mk (jsTrim pr.1))])
              else
                let bare := List.takeWhile (fun ch => ¬ jsWS ch ∧ ch ≠ '>') (q :: rem3)
                attrLoop f (List.dropWhile (fun ch => ¬ jsWS ch ∧ ch ≠ '>') (q :: rem3))
                  (out1 ++ [Tok.attrValue (String.mk bare)])
            | [] => attrLoop f [] (out1 ++ [Tok.attrValue ""])
          | _ => attrLoop f rem1 (out1 ++ [Tok.attrName (String.mk attr)])

/-- One iteration of the outer `tokenize` loop (lexer.ts lines 172-282), on a
nonempty input `c :: rest`.  Returns the new token list, remaining input and
brace depth.  In the final (plain text) branch the source emits no token and
consumes nothing when the text run is empty — the cursor then does not
advance, which is faithfully preserved. -/
def lexStep1 (c : Char) (rest : List Char) (depth : Nat) (out : List Tok) :
    List Tok × List Char × Nat :=
  if c = lbraceC then (out ++ [Tok.exprOpen], rest, depth + 1)
  else if c = rbraceC ∧ depth > 0 then (out ++ [Tok.exprClose], rest, depth - 1)
  else if c = '<' ∧ rest.head? = some '/' then
    let rem2 := rest.tail
    let name := List.takeWhile isNameChar rem2
    let rem3 := List.dropWhile isNameChar rem2
    let rem4 := match rem3 with
      | g :: r => if g = '>' then r else g :: r
      | [] => []
    (out ++ [Tok.tagClose (String.mk name)], rem4, depth)
  else if c = '<' ∧ headIsAlpha rest then
    let tag := List.takeWhile isNameChar rest
    let rem2 := List.dropWhile isNameChar rest
    let pr := attrLoop (rem2.length + 1) rem2 (out ++ [Tok.tagOpen (String.mk tag)])
    match pr.2 with
    | '/' :: r =>
      let rem5 := match r with
        | g :: r2 => if g = '>' then r2 else g :: r2
        | [] => []
      (pr.1 ++ [Tok.tagClose (String.mk tag)], rem5, depth)
    | '>' :: r => (pr.1, r, depth)
    | other => (pr.1, other, depth)
  else
    let txt := List.takeWhile (fun ch => ch ≠ '<' ∧ ch ≠ lbraceC ∧ ch ≠ rbraceC) (c :: rest)
    let rem' := List.dropWhile (fun ch => ch ≠ '<' ∧ ch ≠ lbraceC ∧ ch ≠ rbraceC) (c :: rest)
    ((if txt = [] then out else out ++ [Tok.text (String.mk txt)]), rem', depth)

/-- The outer `tokenize` loop.  One fuel unit per iteration; `none` models the
source looping forever (its `while` has iterations that consume nothing). -/
def lexRun : Nat → List Char → Nat → List Tok → Option (List Tok)
  | 0, _, _, _ => none
  | Nat.succ f, rem, depth, out =>
    match rem with
    | [] => some (out ++ [Tok.eof])
    | c :: rest =>
      let st := lexStep1 c rest depth out
      lexRun f st.2.1 st.2.2 st.1

/-- `tokenize(src)` of `src/compiler/lexer.ts`, fueled. -/
def tokenize (fuel : Nat) (src : String) : Option (List Tok) :=
  lexRun fuel src.data 0 []

/-- AST node type of `src/compiler/parser.ts`.  `attrs` is the insertion-ordered
JS object `Record<string, string | null>`. -/
inductive PNode where
  | element (tag : String) (attrs : List (String × Option String)) (children : List PNode)
  | text (value : String)
  | expr (code : String)
deriving Repr

/-- JS object property assignment `attrs[name] = val`: replace in place if the
key exists, else append (insertion order preserved). -/
def objUpsert (l : List (String × Option String)) (k : String) (v : Option String) :
    List (String × Option String) :=
  if l.any (fun kv => kv.1 = k) then l.map (fun kv => if kv.1 = k then (k, v) else kv)
  else l ++ [(k, v)]

/-- `/^[A-Z]/.test(tag)` (parser inline helper). -/
def startsUpper (s : String) : Bool :=
  match s.data with
  | c :: _ => 65 ≤ c.toNat && c.toNat ≤ 90
  | [] => false

/-- JS regex `/^\x7b.*\x7d$/.test(v)`: first char `{`, last char `}`, and no
line terminator in between (`.` does not match line breaks). -/
def bracedLit (s : String) : Bool :=
  match s.data with
  | [] => false
  | c :: rest =>
    c = lbraceC && (match rest.getLast? with | some d => d = rbraceC | none => false)
      && rest.dropLast.all
        (fun ch => ch ≠ '\n' && ch ≠ '\r' && ch.toNat ≠ 8232 && ch.toNat ≠ 8233)

/-- `val.slice(1, -1).trim()`. -/
def sliceTrim (s : String) : String :=
  String.mk (jsTrim (s.data.drop 1).dropLast)

/-- The string `{`. -/
def lbraceS : String := String.mk [lbraceC]

/-- The string `}`. -/
def rbraceS : String := String.mk [rbraceC]

/-- `buildInlineProps` of the parser's expression-inlining helper
(parser.ts lines 111-126). -/
def buildInlineProps (attrs : List (String × Option String)) : String :=
  let pairs := attrs.map (fun kv =>
    match kv.2 with
    | none => "\"" ++ kv.1 ++ "\":null"
    | some v =>
      if v = "" then "\"" ++ kv.1 ++ "\":null"
      else if bracedLit v then "\"" ++ kv.1 ++ "\":(" ++ sliceTrim v ++ ")"
      else "\"" ++ kv.1 ++ "\":" ++ jsonQuote v)
  lbraceS ++ String.intercalate "," pairs ++ rbraceS

mutual

/-- `inline` of `parseExpr` (parser.ts lines 99-109): lower an element parsed
inside a brace expression to code text immediately. -/
def inlineNode : PNode → String
  | .text v => jsonQuote v
  | .expr c => "(" ++ c ++ ")"
  | .element tag attrs children =>
    let props := buildInlineProps attrs
    let kids := String.intercalate ", " ((inlineKids children).filter (fun s => s ≠ ""))
    let tagS := if startsUpper tag then tag else "\"" ++ tag ++ "\""
    if kids = "" then "h(" ++ tagS ++ ", " ++ props ++ ")"
    else "h(" ++ tagS ++ ", " ++ props ++ ", " ++ kids ++ ")"

/-- `n.children.map(inline)`. -/
def inlineKids : List PNode → List String
  | [] => []
  | n :: rest => inlineNode n :: inlineKids rest

end

/-- `parts.join('')` then `.trim()`, wrapped as an Expression node
(parser.ts line 96). -/
def mkExprNode (parts : List String) : PNode :=
  PNode.expr (String.mk (jsTrim (String.join parts).data))

/-- The attribute-collection loop of `parseElement` (parser.ts lines 136-173).
One fuel unit per iteration; every iteration consumes at least one token, so
fuel `length + 1` always suffices. -/
def parseAttrs : Nat → List Tok → List (String × Option String) →
    List (String × Option String) × List Tok
  | 0, ts, acc => (acc, ts)
  | Nat.succ f, ts, acc =>
    match ts with
    | [] => (acc, [])
    | Tok.eof :: rest => (acc, Tok.eof :: rest)
    | Tok.tagOpen n :: rest => (acc, Tok.tagOpen n :: rest)
    | Tok.tagClose n :: rest => (acc, Tok.tagClose n :: rest)
    | Tok.exprOpen :: rest =>
      -- breaks the loop only when not directly after an `attrName`
      (acc, Tok.exprOpen :: rest)
    | Tok.text v :: rest => (acc, Tok.text v :: rest)
    | Tok.attrName n :: rest =>
      match rest with
      | Tok.attrValue v :: rest2 => parseAttrs f rest2 (objUpsert acc n (some v))
      | Tok.exprOpen :: rest2 =>
        let pr : Option String × List Tok :=
          match rest2 with
          | Tok.attrValue v :: rest3 => (some v, rest3)
          | _ => (none, rest2)
        let rest4 := match pr.2 with
          | Tok.exprClose :: r => r
          | _ => pr.2
        parseAttrs f rest4 (objUpsert acc n pr.1)
      | _ => parseAttrs f rest (objUpsert acc n none)
    | _ :: rest => parseAttrs f rest acc

mutual

/-- `parseNodes(stopTag?)` of parser.ts (lines 22-53), fueled (one unit per
recursive step; the source always either consumes a token or returns, so any
fuel beyond the token count is enough). -/
def parseNodesF : Nat → Option String → List Tok → List PNode × List Tok
  | 0, _, ts => ([], ts)
  | Nat.succ f, stop, ts =>
    match ts with
    | [] => ([], [])
    | Tok.eof :: rest => ([], Tok.eof :: rest)
    | Tok.tagClose n :: rest =>
      if stop = some n then ([], rest)
      else parseNodesF f stop rest
    | Tok.tagOpen n :: rest =>
      let pe := parseElementF f n rest
      let pn := parseNodesF f stop pe.2
      (pe.1 :: pn.1, pn.2)
    | Tok.text v :: rest =>
      let pn := parseNodesF f stop rest
      (PNode.text v :: pn.1, pn.2)
    | Tok.exprOpen :: rest =>
      let pe := parseExprF f 1 [] rest
      let pn := parseNodesF f stop pe.2
      (pe.1 :: pn.1, pn.2)
    | _ :: rest => parseNodesF f stop rest

/-- `parseExpr()` of parser.ts (lines 56-96): depth-tracked expression scan
accumulating code text; a `tagOpen` re-enters element parsing and inlines the
result.  `tagClose`/`attrName` tokens contribute their `name` text. -/
def parseExprF : Nat → Nat → List String → List Tok → PNode × List Tok
  | 0, _, parts, ts => (mkExprNode parts, ts)
  | Nat.succ f, depth, parts, ts =>
    match ts with
    | [] => (mkExprNode parts, [])
    | Tok.exprOpen :: rest => parseExprF f (depth + 1) parts rest
    | Tok.exprClose :: rest =>
      if depth - 1 = 0 then (mkExprNode parts, rest)
      else parseExprF f (depth - 1) parts rest
    | Tok.tagOpen n :: rest =>
      let pe := parseElementF f n rest
      parseExprF f depth (parts ++ [inlineNode pe.1]) pe.2
    | Tok.text v :: rest => parseExprF f depth (parts ++ [v]) rest
    | Tok.attrValue v :: rest => parseExprF f depth (parts ++ [v]) rest
    | Tok.tagClose n :: rest => parseExprF f depth (parts ++ [n]) rest
    | Tok.attrName n :: rest => parseExprF f depth (parts ++ [n]) rest
    | Tok.eof :: rest => parseExprF f depth parts rest

/-- `parseElement()` of parser.ts (lines 130-178), entered with the `tagOpen`
token already consumed (its name is the first argument). -/
def parseElementF : Nat → String → List Tok → PNode × List Tok
  | 0, tag, ts => (PNode.element tag [] [], ts)
  | Nat.succ f, tag, ts =>
    let pa := parseAttrs (ts.length + 1) ts []
    let pn := parseNodesF f (some tag) pa.2
    (PNode.element tag pa.1 pn.1, pn.2)

end

/-- `parse(tokens)` of parser.ts (entry point, `stopTag` undefined). -/
def parse (fuel : Nat) (ts : List Tok) : List PNode :=
  (parseNodesF fuel none ts).1

/-- The push step of the optimizer loop (transformer.ts lines 56-61): if the
incoming node and the most recently pushed node are both text, append the new
value into the last node, else push.  The accumulator is kept reversed, so the
"last pushed" node is its head. -/
def optPush (acc : List PNode) (n : PNode) : List PNode :=
  match acc, n with
  | PNode.text w :: accRest, PNode.text v => PNode.text (w ++ v) :: accRest
  | _, _ => n :: acc

mutual

/-- The optimizer loop of `optimize` (transformer.ts lines 43-65): elements are
pushed with their children optimized recursively, adjacent text nodes are
merged, everything else passes through. -/
def optGo (acc : List PNode) : List PNode → List PNode
  | [] => acc.reverse
  | n :: rest => optGo (optPush acc (optNode1 n)) rest

/-- Child recursion of the optimizer: an element's children are optimized with
a fresh accumulator, other nodes pass through unchanged. -/
def optNode1 : PNode → PNode
  | PNode.element t a cs => PNode.element t a (optGo [] cs)
  | n => n

end

/-- `optimize(ast)` of `src/compiler/transformer.ts` (the recursive
text-merging variant matched by the repository's optimizer tests). -/
def optimize (ast : List PNode) : List PNode :=
  optGo [] ast

/-- `charCodeAt(0)` component test of codegen (`first >= 65 && first <= 90`). -/
def isComponentTag (s : String) : Bool :=
  match s.data with
  | c :: _ => 65 ≤ c.toNat && c.toNat ≤ 90
  | [] => false

/-- `val.charCodeAt(0) === 123 && val.charCodeAt(len-1) === 125 && len > 1`
(the brace test of codegen's `buildProps`). -/
def bracedCharCode (s : String) : Bool :=
  match s.data with
  | [] => false
  | c :: rest =>
    c = lbraceC && rest ≠ [] && (match rest.getLast? with | some d => d = rbraceC | none => false)

/-- The event-handler key test of codegen's `buildProps`:
`key.startsWith("on") || (len > 3 && key[2] === ':') ||
 (len > 2 && key[0] === 'o' && key[1] === 'n')`. -/
def isHandlerKey (key : String) : Bool :=
  (match key.data with
   | 'o' :: 'n' :: _ => true
   | _ => false)
    || (key.length > 3 && key.data.getD 2 ' ' = ':')
    || (key.length > 2 && key.data.getD 0 ' ' = 'o' && key.data.getD 1 ' ' = 'n')

/-- One `pairs.push` step of codegen's `buildProps` loop. -/
def propEntry (key : String) (raw : Option String) : String :=
  let v : Option String := match raw with
    | none => none
    | some s => if s = "" then none else some s
  match v with
  | none => "\"" ++ key ++ "\":null"
  | some val =>
    if bracedCharCode val then "\"" ++ key ++ "\":" ++ sliceTrim val
    else if isHandlerKey key then "\"" ++ key ++ "\":" ++ val
    else "\"" ++ key ++ "\":" ++ jsonQuote val

/-- `buildProps(attrs)` of `src/compiler/codegen.ts` (the props serializer the
repository's `buildProps` tests pin down: boolean attributes become `null`,
braced values are unwrapped, `on*` keys stay raw references). -/
def buildProps (attrs : List (String × Option String)) : String :=
  if attrs = [] then lbraceS ++ rbraceS
  else lbraceS ++ String.intercalate "," (attrs.map (fun kv => propEntry kv.1 kv.2)) ++ rbraceS

/-- `replace(/\s+/g, " ")`: collapse every whitespace run to one space. -/
def collapseWS : List Char → List Char
  | [] => []
  | c :: rest =>
    let tail := collapseWS rest
    if jsWS c then
      if (rest.head?.map jsWS).getD false then tail else ' ' :: tail
    else c :: tail

/-- The `Text` case of codegen's `gen`. -/
def genText (v : String) : String :=
  let value0 := String.mk (collapseWS v.data)
  let lead := (v.data.head?.map jsWS).getD false
  let trail := (v.data.getLast?.map jsWS).getD false
  let value1 := if lead && !(value0.data.head? = some ' ' : Bool) then " " ++ value0 else value0
  let value2 := if trail && !(value1.data.getLast? = some ' ' : Bool) then value1 ++ " " else value1
  if String.mk (jsTrim value2.data) = "" then "" else jsonQuote value2

/-- `/^\(.*\)$/.test(c)`: already-parenthesized test of the Expression case. -/
def parenWrapped (s : String) : Bool :=
  match s.data with
  | [] => false
  | c :: rest =>
    c = '(' && (match rest.getLast? with | some d => d = ')' | none => false)
      && rest.dropLast.all
        (fun ch => ch ≠ '\n' && ch ≠ '\r' && ch.toNat ≠ 8232 && ch.toNat ≠ 8233)

mutual

/-- `gen(n)` of `src/compiler/codegen.ts`. -/
def genNode : PNode → String
  | .text v => genText v
  | .expr code =>
    let c := String.mk (jsTrim code.data)
    if c = "" then ""
    else if parenWrapped c then c
    else "(" ++ c ++ ")"
  | .element tag attrs children =>
    let props := buildProps attrs
    let childStr := String.intercalate ", " ((genKids children).filter (fun s => s ≠ ""))
    let tagExpr := if isComponentTag tag then tag else jsonQuote tag
    if childStr = "" then "h(" ++ tagExpr ++ ", " ++ props ++ ")"
    else "h(" ++ tagExpr ++ ", " ++ props ++ ", " ++ childStr ++ ")"

/-- `n.children.map(gen)`. -/
def genKids : List PNode → List String
  | [] => []
  | n :: rest => genNode n :: genKids rest

end

/-- `generate(nodes)` of `src/compiler/codegen.ts`: empty → `null`, one part →
that part, several → a bracketed comma-joined array. -/
def generate (nodes : List PNode) : String :=
  let parts := (genKids nodes).filter (fun s => s ≠ "")
  match parts with
  | [] => "null"
  | [p] => p
  | ps => "[" ++ String.intercalate ", " ps ++ "]"

/-- The compiler pipeline on a plain template: tokenize, parse, optimize,
generate (`compile.ts`, plain-template path). -/
def pipeline (fuel : Nat) (src : String) : Option String :=
  (tokenize fuel src).map (fun ts => generate (optimize (parse fuel ts)))

/-- Outcome of a JS computation: normal return, a thrown exception, or
divergence (the fueled embedding ran out of fuel). -/
inductive JsOut (α : Type) where
  | ret (a : α)
  | thrown (e : String)
  | hang
deriving Repr

/-- `template.replace(/"/g, '\\"').replace(/\r?\n/g, "\\n")` of the `catch`
branch of `compile` (compile.ts line 115). -/
def escapeTpl : List Char → List Char
  | [] => []
  | '"' :: r => '\\' :: '"' :: escapeTpl r
  | '\r' :: '\n' :: r => '\\' :: 'n' :: escapeTpl r
  | '\n' :: r => '\\' :: 'n' :: escapeTpl r
  | c :: r => c :: escapeTpl r

/-- The fallback diagnostic expression returned by `compile`'s `catch`
(compile.ts line 116). -/
def fallbackExpr (template : String) : String :=
  "h(\"pre\",null,\"" ++ String.mk (escapeTpl template.data) ++ "\")"

/-- The body of `compile`'s `try` block on the plain-template path
(compile.ts lines 90-95): run the pipeline; no stage of the pipeline throws,
but the tokenizer can loop forever. -/
def compileBody (fuel : Nat) (template : String) : JsOut String :=
  match tokenize fuel template with
  | none => JsOut.hang
  | some ts => JsOut.ret (generate (optimize (parse fuel ts)))

/-- The `catch` of `compile` (compile.ts lines 113-117): a thrown exception
becomes the fallback expression; anything else passes through. -/
def compileCatch (template : String) (r : JsOut String) : JsOut String :=
  match r with
  | JsOut.thrown _ => JsOut.ret (fallbackExpr template)
  | x => x

/-- `compile(template)` = `try` body wrapped in the `catch`. -/
def compileRun (fuel : Nat) (template : String) : JsOut String :=
  compileCatch template (compileBody fuel template)

/-!  Reactive core (`signal` / `batch` of `src/runtime.ts`).

A world carries every signal's current value and subscriber list, the
module-level `isBatching` flag and `pending` set, and an invocation counter per
subscriber (subscribers are modelled as counters: being "notified" increments
the count).  `pending` holds one entry per `runAll` closure added by `set`;
since `set` allocates a fresh closure on every call, the JS `Set` never
deduplicates them, so the model is a list with multiplicity. -/

structure RWorld where
  vals : Nat → Int
  subs : Nat → List Nat
  isBatching : Bool
  pending : List Nat
  counts : Nat → Nat
  log : List Int

/-- Pointwise function update. -/
def updF {α : Type} (f : Nat → α) (k : Nat) (v : α) : Nat → α :=
  fun x => if x = k then v else f x

/-- `subs.forEach((fn) => fn())`: run every subscriber of signal `s` once, in
insertion order. -/
def runSubs (s : Nat) (w : RWorld) : RWorld :=
  { w with counts := (w.subs s).foldl (fun c sub => updF c sub (c sub + 1)) w.counts }

/-- Programs over the reactive core: a signal write, a signal read (logging the
value seen), or a `batch(fn)` whose body is a command list. -/
inductive Cmd where
  | setSig (s : Nat) (v : Int)
  | readSig (s : Nat)
  | batch (body : List Cmd)

/-- The flush at the end of the outermost batch (runtime.ts lines 248-251):
snapshot `pending`, clear it, then run each recorded `runAll` closure. -/
def flushW (w : RWorld) : RWorld :=
  let tasks := w.pending
  List.foldl (fun acc s => runSubs s acc) { w with pending := [] } tasks

mutual

/-- Execution of one command, faithful to `sig.set` (runtime.ts lines 194-201:
`Object.is` same-value writes are no-ops; changed values are stored, then the
notification pass is run immediately or recorded in `pending` while batching),
signal read (returns the stored value) and `batch` (runtime.ts lines 240-254:
set the flag, run the body, restore, flush when the flag was clear). -/
def execCmd : Cmd → RWorld → RWorld
  | Cmd.setSig s v, w =>
    if v = w.vals s then w
    else
      let w1 := { w with vals := updF w.vals s v }
      if w1.isBatching then { w1 with pending := w1.pending ++ [s] } else runSubs s w1
  | Cmd.readSig s, w => { w with log := w.log ++ [w.vals s] }
  | Cmd.batch body, w =>
    let was := w.isBatching
    let w1 := execCmds body { w with isBatching := true }
    let w2 := { w1 with isBatching := was }
    if was then w2 else flushW w2

/-- Sequential execution of a command list. -/
def execCmds : List Cmd → RWorld → RWorld
  | [], w => w
  | c :: cs, w => execCmds cs (execCmd c w)

end

/-!  Keyed list reconciler (`each` of `src/runtime.ts`, lines 262-323).

Rendered nodes are fresh identifiers allocated per `render` call; the DOM
parent's child list holds the nodes plus the trailing anchor comment.  An
item's backing item-signal and index-signal are inlined as the current values
stored in its record. -/

structure Item where
  id : Option Nat
  data : String
deriving Repr, DecidableEq

inductive DomN where
  | node (id : Nat)
  | marker
deriving Repr, DecidableEq

structure EachRec where
  sigVal : Item
  idxVal : Nat
  node : DomN
deriving Repr, DecidableEq

structure EachSt where
  lookup : List (Nat × EachRec)
  dom : List DomN
  nextId : Nat
  renders : List (Nat × Item × Nat)
deriving Repr, DecidableEq

/-- `parent.insertBefore(node, marker)`: insert right before the anchor. -/
def insBeforeMarker (dom : List DomN) (n : DomN) : List DomN :=
  match dom with
  | [] => [n]
  | DomN.marker :: rest => n :: DomN.marker :: rest
  | d :: rest => d :: insBeforeMarker rest n

/-- `lookup.get(key)`. -/
def lookupFind (l : List (Nat × EachRec)) (k : Nat) : Option EachRec :=
  (l.find? (fun kv => kv.1 = k)).map (fun kv => kv.2)

/-- `lookup.set(key, rec)`: replace in place if present, else append. -/
def mapSet (l : List (Nat × EachRec)) (k : Nat) (r : EachRec) : List (Nat × EachRec) :=
  if l.any (fun kv => kv.1 = k) then l.map (fun kv => if kv.1 = k then (k, r) else kv)
  else l ++ [(k, r)]

/-- The update/add pass of the `each` effect (runtime.ts lines 294-311): for
each item, key by `val.id ?? i`; existing records get their item/index signals
set; missing keys render a fresh node inserted before the anchor. -/
def eachUpd : List Item → Nat → List Nat → EachSt → EachSt × List Nat
  | [], _, used, st => (st, used)
  | it :: restItems, i, used, st =>
    let key := it.id.getD i
    let used1 := used ++ [key]
    match lookupFind st.lookup key with
    | none =>
      let nid := st.nextId
      let st1 : EachSt := { st with
        nextId := nid + 1
        renders := st.renders ++ [(nid, it, i)]
        lookup := mapSet st.lookup key { sigVal := it, idxVal := i, node := DomN.node nid }
        dom := insBeforeMarker st.dom (DomN.node nid) }
      eachUpd restItems (i + 1) used1 st1
    | some rec0 =>
      let st1 : EachSt := { st with
        lookup := mapSet st.lookup key { rec0 with sigVal := it, idxVal := i } }
      eachUpd restItems (i + 1) used1 st1

/-- The removal pass of the `each` effect (runtime.ts lines 314-319): every
record whose key was not visited is detached from the DOM and dropped from the
map. -/
def eachRemove : List (Nat × EachRec) → List Nat → EachSt → EachSt
  | [], _, st => st
  | (k, r) :: rest, used, st =>
    if k ∈ used then eachRemove rest used st
    else
      eachRemove rest used { st with
        dom := st.dom.erase r.node
        lookup := st.lookup.filter (fun kv => kv.1 ≠ k) }

/-- One re-run of the `each` effect on array `arr` against state `st`. -/
def eachStep (arr : List Item) (st : EachSt) : EachSt :=
  let pr := eachUpd arr 0 [] st
  eachRemove pr.1.lookup pr.2 pr.1

/-- The initial render loop of `each` (runtime.ts lines 272-284) followed by
appending the rendered nodes and the anchor into the parent. -/
def eachInitGo : List Item → Nat → EachSt → EachSt
  | [], _, st => st
  | it :: rest, i, st =>
    let nid := st.nextId
    let st1 : EachSt := { st with
      nextId := nid + 1
      renders := st.renders ++ [(nid, it, i)]
      lookup := mapSet st.lookup (it.id.getD i) { sigVal := it, idxVal := i, node := DomN.node nid }
      dom := st.dom ++ [DomN.node nid] }
    eachInitGo rest (i + 1) st1

/-- `each(list, render)` initial state, with nodes and anchor in the parent. -/
def eachInit (arr : List Item) : EachSt :=
  let st := eachInitGo arr 0 { lookup := [], dom := [], nextId := 1, renders := [] }
  { st with dom := st.dom ++ [DomN.marker] }

/-!  Optimizer: normal form and idempotence. -/

/-- Is the node a Text node? -/
def isTextN : PNode → Bool
  | PNode.text _ => true
  | _ => false

/-- Adjacency check: `a` immediately followed by the head of `r` must not be
two Text nodes. -/
def noTextHead (a : PNode) (r : List PNode) : Bool :=
  match a, r with
  | PNode.text _, PNode.text _ :: _ => false
  | _, _ => true

mutual

/-- A node is in optimizer normal form when its children are. -/
def nfNode : PNode → Bool
  | PNode.element _ _ cs => nfL cs
  | _ => true

/-- A node list is in optimizer normal form: no two adjacent Text nodes, all
element children recursively in normal form. -/
def nfL : List PNode → Bool
  | [] => true
  | a :: r => nfNode a && noTextHead a r && nfL r

end

/-- Boundary check used to state how normal form behaves under append. -/
def bOk : Option PNode → Option PNode → Bool
  | some (PNode.text _), some (PNode.text _) => false
  | _, _ => true

mutual

/-- Size of a node, for strong induction over the nested AST. -/
def szN : PNode → Nat
  | PNode.element _ _ cs => 1 + szL cs
  | _ => 1

/-- Size of a node list. -/
def szL : List PNode → Nat
  | [] => 0
  | n :: r => szN n + szL r

end

/-- Compatibility of an accumulator head with the next input node: they must
not be two Text nodes (the only case in which `optPush` merges). -/
def accCompat : List PNode → List PNode → Bool
  | PNode.text _ :: _, PNode.text _ :: _ => false
  | _, _ => true

mutual

/-- Size of a command, for strong induction over nested bodies. -/
def szC : Cmd → Nat
  | Cmd.batch body => 1 + szCs body
  | _ => 1

/-- Size of a command list. -/
def szCs : List Cmd → Nat
  | [] => 0
  | c :: cs => szC c + szCs cs

end

/-- A world with one signal (id 0, value 0) and one subscriber (id 0)
registered on it; no batch active. -/
def demoWorld : RWorld :=
  { vals := fun _ => 0
    subs := fun s => if s = 0 then [0] else []
    isBatching := false
    pending := []
    counts := fun _ => 0
    log := [] }

/-!  Keyed reconciler results. -/

/-- The identity key of a keyed item (`val.id ?? i` when `id` is present). -/
def itemKey (it : Item) : Nat := it.id.getD 0

/-- Is `d` a rendered node with id below the bound? -/
def nodeBoundB (d : DomN) (b : Nat) : Bool :=
  match d with
  | DomN.node nid => nid < b
  | DomN.marker => false

/-- The initial keyed list of the spec scenario: items with ids 1 and 2. -/
def demoA : List Item := [⟨some 1, "a"⟩, ⟨some 2, "b"⟩]

/-- The spec scenario's second list: the surviving id 2 first, the fresh id 3
second. -/
def demoB : List Item := [⟨some 2, "b"⟩, ⟨some 3, "c"⟩]

/-- A transition listing the fresh item first: ids [3, 2] from [1, 2]. -/
def demoBrev : List Item := [⟨some 3, "c"⟩, ⟨some 2, "b"⟩]

example : tokenize 50 "hello world" = some [Tok.text "hello world", Tok.eof] := by decide

example :
    tokenize 50 "<input value=\x7bcount\x7d id=\"x\">" =
      some [Tok.tagOpen "input", Tok.attrName "value", Tok.attrValue "count",
            Tok.attrName "id", Tok.attrValue "x", Tok.eof] := by decide

example :
    pipeline 99 "<div class=\"map\"><h1>\x7bmsg\x7d</h1><p>Rendered!</p></div>" =
      some "h(\"div\", \x7b\"class\":\"map\"\x7d, h(\"h1\", \x7b\x7d, (msg)), h(\"p\", \x7b\x7d, \"Rendered!\"))" := by
  rfl

example :
    pipeline 99 "<MyButton label=\"Save\" onClick=\x7bhandleSave\x7d>Click me</MyButton>" =
      some "h(MyButton, \x7b\"label\":\"Save\",\"onClick\":handleSave\x7d, \"Click me\")" := by
  rfl

example :
    pipeline 99 "<input value=\x7bcount\x7d disabled>" =
      some "h(\"input\", \x7b\"value\":\"count\",\"disabled\":null\x7d)" := by
  rfl

example :
    pipeline 99 "<p>A</p><p>B</p>" = some "[h(\"p\", \x7b\x7d, \"A\"), h(\"p\", \x7b\x7d, \"B\")]" := by
  rfl

/-!  Lexer results: divergence on a stray closing brace, and the eof shape of
every terminating run. -/

/-- On input `"\x7d"` (a stray closing brace at depth 0) the outer lexer loop
makes no progress: one iteration returns the state unchanged. -/
theorem tok_stall : ∀ fuel, tokenize fuel rbraceS = none := by
  intro fuel
  induction fuel with
  | zero => rfl
  | succ f ih =>
    show tokenize (f + 1) rbraceS = none
    rw [show tokenize (f + 1) rbraceS = tokenize f rbraceS from rfl]
    exact ih

/-- The attribute sub-loop only appends `attrName`/`attrValue` tokens. -/
theorem attrLoop_no_eof : ∀ f rem out, Tok.eof ∉ out → Tok.eof ∉ (attrLoop f rem out).1 := by
  intro f
  induction f with
  | zero => intro rem out h; exact h
  | succ f ih =>
    intro rem out h
    match rem with
    | [] => exact h
    | c :: rest =>
      simp only [attrLoop]
      split
      · exact h
      · split
        · exact ih rest out h
        · split
          · exact ih rest out h
          · split
            · split
              · split
                · apply ih
                  simp_all [List.mem_append]
                · split
                  · apply ih
                    simp_all [List.mem_append]
                  · apply ih
                    simp_all [List.mem_append]
              · apply ih
                simp_all [List.mem_append]
            · apply ih
              simp_all [List.mem_append]

/-- One outer lexer iteration never emits an `eof` token. -/
theorem lexStep1_no_eof (c : Char) (rest : List Char) (depth : Nat) (out : List Tok)
    (h : Tok.eof ∉ out) : Tok.eof ∉ (lexStep1 c rest depth out).1 := by
  simp only [lexStep1]
  split
  · simp_all [List.mem_append]
  · split
    · simp_all [List.mem_append]
    · split
      · simp_all [List.mem_append]
      · split
        · have h2 : Tok.eof ∉ (attrLoop (List.dropWhile isNameChar rest).length.succ
              (List.dropWhile isNameChar rest)
              (out ++ [Tok.tagOpen (String.mk (List.takeWhile isNameChar rest))])).1 := by
            apply attrLoop_no_eof
            simp_all [List.mem_append]
          split
          · simp_all [List.mem_append]
          · exact h2
          · exact h2
        · split
          · exact h
          · simp_all [List.mem_append]

/-- Every terminating lexer run ends in exactly one `eof` token. -/
theorem lexRun_eof : ∀ f rem depth out res, lexRun f rem depth out = some res →
    Tok.eof ∉ out → res.getLast? = some Tok.eof ∧ res.count Tok.eof = 1 := by
  intro f
  induction f with
  | zero => intro rem depth out res h; exact absurd h (by simp [lexRun])
  | succ f ih =>
    intro rem depth out res h hout
    match rem with
    | [] =>
      have : out ++ [Tok.eof] = res := by simpa [lexRun] using h
      subst this
      constructor
      · simp
      · rw [List.count_append]
        rw [List.count_eq_zero.mpr hout]
        simp
    | c :: rest =>
      have h' : lexRun f (lexStep1 c rest depth out).2.1 (lexStep1 c rest depth out).2.2
          (lexStep1 c rest depth out).1 = some res := h
      exact ih _ _ _ _ h' (lexStep1_no_eof c rest depth out hout)

/-- Claim C2: the specified contract — `tokenize` terminates on every input
with a token list ending in exactly one `eof` — fails on the code: a stray
closing brace at depth 0 (input `"\x7d"`) makes the scan loop forever, because
the plain-text branch neither emits a token nor advances the cursor there.
Whenever `tokenize` does terminate, its result ends in exactly one `eof`. -/
theorem claim_C2_tokenize_eof_and_stray_rbrace_divergence :
    (∀ fuel, tokenize fuel rbraceS = none) ∧
    (∀ fuel s res, tokenize fuel s = some res →
      res.getLast? = some Tok.eof ∧ res.count Tok.eof = 1) := by
  constructor
  · exact tok_stall
  · intro fuel s res h
    exact lexRun_eof fuel s.data 0 [] res h (by simp)

/-- Witness for claim C2's terminating-run conjunct at a concrete input. -/
theorem claim_C2_witness :
    ([Tok.text "hi", Tok.eof] : List Tok).getLast? = some Tok.eof ∧
      ([Tok.text "hi", Tok.eof] : List Tok).count Tok.eof = 1 :=
  claim_C2_tokenize_eof_and_stray_rbrace_divergence.2 9 "hi" [Tok.text "hi", Tok.eof] rfl

/-- Claim C7: the parser itself skips stray tokens (a stray `exprClose`, or an
unmatched `tagClose` at top level, is consumed and ignored), but the composed
`parse(tokenize(s))` does not return for every string: on the stray closing
brace `"\x7d"` the tokenizer loops forever, so the pipeline never produces a
result under any fuel. -/
theorem claim_C7_parse_skips_strays_but_pipeline_diverges :
    (∀ fuel stop ts, parseNodesF (fuel + 1) stop (Tok.exprClose :: ts) = parseNodesF fuel stop ts) ∧
    (∀ fuel n ts, parseNodesF (fuel + 1) none (Tok.tagClose n :: ts) = parseNodesF fuel none ts) ∧
    (∀ fuel, pipeline fuel rbraceS = none) := by
  refine ⟨fun fuel stop ts => rfl, fun fuel n ts => rfl, fun fuel => ?_⟩
  show (tokenize fuel rbraceS).map _ = none
  rw [tok_stall]
  rfl

theorem noTextHead_eq_bOk (a : PNode) (r : List PNode) :
    noTextHead a r = bOk (some a) r.head? := by
  cases a <;> cases r <;> simp [noTextHead, bOk] <;> rename_i n _ <;> cases n <;> simp [bOk]

theorem nfL_cons (a : PNode) (r : List PNode) :
    nfL (a :: r) = true ↔ (nfNode a = true ∧ bOk (some a) r.head? = true ∧ nfL r = true) := by
  simp only [nfL, Bool.and_eq_true, noTextHead_eq_bOk]
  tauto

theorem bOk_comm (h t : Option PNode) : bOk h t = bOk t h := by
  cases h with
  | none => cases t with
    | none => rfl
    | some n => cases n <;> rfl
  | some n =>
    cases n <;> cases t <;> try rfl
    all_goals (rename_i m; cases m <;> rfl)

theorem nfL_append (xs ys : List PNode) :
    nfL (xs ++ ys) = true ↔
      (nfL xs = true ∧ nfL ys = true ∧ bOk xs.getLast? ys.head? = true) := by
  induction xs with
  | nil => simp [nfL, bOk]
  | cons a xs ih =>
    rw [List.cons_append, nfL_cons, nfL_cons, ih]
    match xs with
    | [] =>
      simp only [List.nil_append, List.getLast?_singleton, List.head?_nil, List.getLast?_nil]
      simp [nfL, bOk]
      tauto
    | b :: xs' =>
      simp only [List.cons_append, List.head?_cons]
      rw [show ((a :: b :: xs').getLast? : Option PNode) = (b :: xs').getLast? by simp]
      tauto

theorem nfL_singleton (a : PNode) : nfL [a] = nfNode a := by
  cases a <;> simp [nfL, noTextHead]

theorem nfL_reverse (l : List PNode) : nfL l.reverse = true ↔ nfL l = true := by
  induction l with
  | nil => simp
  | cons a l ih =>
    rw [List.reverse_cons, nfL_append, ih, nfL_singleton, List.getLast?_reverse, nfL_cons]
    simp only [List.head?_cons]
    rw [bOk_comm l.head? (some a)]
    tauto

theorem szN_pos (n : PNode) : 1 ≤ szN n := by
  cases n <;> simp [szN]

theorem optPush_nil (m : PNode) : optPush [] m = [m] := by
  cases m <;> rfl

theorem optPush_not_text (acc : List PNode) (m : PNode) (h : isTextN m = false) :
    optPush acc m = m :: acc := by
  match acc, m with
  | [], m => exact optPush_nil m
  | a :: rest, m => cases a <;> cases m <;> simp_all [optPush, isTextN]

theorem optPush_text_nontext_head (a : PNode) (accRest : List PNode) (v : String)
    (h : isTextN a = false) :
    optPush (a :: accRest) (PNode.text v) = PNode.text v :: a :: accRest := by
  cases a <;> simp_all [optPush, isTextN]

theorem bOk_some_nontext (m : PNode) (o : Option PNode) (h : isTextN m = false) :
    bOk (some m) o = true := by
  cases m <;> cases o <;> simp_all [isTextN, bOk] <;> rename_i n <;> cases n <;> simp [bOk]

theorem bOk_text_congr (x y : String) (o : Option PNode) :
    bOk (some (PNode.text x)) o = bOk (some (PNode.text y)) o := by
  cases o <;> try rfl
  rename_i n; cases n <;> rfl

theorem optPush_nf (acc : List PNode) (m : PNode) (hacc : nfL acc = true)
    (hm : nfNode m = true) : nfL (optPush acc m) = true := by
  match m, acc with
  | m, [] =>
    rw [optPush_nil, nfL_singleton]
    exact hm
  | PNode.text v, a :: accRest =>
    match a with
    | PNode.text w =>
      rw [show optPush (PNode.text w :: accRest) (PNode.text v) =
            PNode.text (w ++ v) :: accRest from rfl]
      rw [nfL_cons] at hacc ⊢
      obtain ⟨h1, h2, h3⟩ := hacc
      refine ⟨rfl, ?_, h3⟩
      rw [bOk_text_congr (w ++ v) w]
      exact h2
    | PNode.element t at_ cs =>
      rw [optPush_text_nontext_head _ _ _ (by rfl)]
      rw [nfL_cons]
      exact ⟨hm, by rw [List.head?_cons]; rfl, hacc⟩
    | PNode.expr c =>
      rw [optPush_text_nontext_head _ _ _ (by rfl)]
      rw [nfL_cons]
      exact ⟨hm, by rw [List.head?_cons]; rfl, hacc⟩
  | PNode.element t at_ cs, a :: accRest =>
    rw [optPush_not_text _ _ (by rfl), nfL_cons]
    exact ⟨hm, bOk_some_nontext _ _ (by rfl), hacc⟩
  | PNode.expr c, a :: accRest =>
    rw [optPush_not_text _ _ (by rfl), nfL_cons]
    exact ⟨hm, bOk_some_nontext _ _ (by rfl), hacc⟩

/-- Every optimizer output is in normal form (no adjacent Text nodes at any
level): the accumulator stays in normal form throughout the loop. -/
theorem optGo_nf : ∀ k l acc, szL l ≤ k → nfL acc = true → nfL (optGo acc l) = true := by
  intro k
  induction k with
  | zero =>
    intro l acc hsz hacc
    match l with
    | [] => simpa [optGo] using (nfL_reverse acc).mpr hacc
    | n :: rest =>
      exfalso
      have := szN_pos n
      simp [szL] at hsz
      omega
  | succ k ih =>
    intro l acc hsz hacc
    match l with
    | [] => simpa [optGo] using (nfL_reverse acc).mpr hacc
    | n :: rest =>
      have hrest : szL rest ≤ k := by
        have := szN_pos n
        simp [szL] at hsz
        omega
      rw [show optGo acc (n :: rest) = optGo (optPush acc (optNode1 n)) rest from by
        simp [optGo]]
      apply ih rest _ hrest
      apply optPush_nf _ _ hacc
      match n with
      | PNode.text v => rfl
      | PNode.expr c => rfl
      | PNode.element t a cs =>
        have hcs : szL cs ≤ k := by
          simp [szL, szN] at hsz
          omega
        simpa [optNode1, nfNode] using ih cs [] hcs (by simp [nfL])

theorem accCompat_nil_left (l : List PNode) : accCompat [] l = true := by
  cases l <;> rfl

theorem accCompat_head_nontext (x : PNode) (acc r : List PNode) (h : isTextN x = false) :
    accCompat (x :: acc) r = true := by
  cases x <;> cases r <;> simp_all [accCompat, isTextN] <;> rename_i n _ <;> cases n <;>
    simp [accCompat]

theorem accCompat_of_bOk (acc : List PNode) (v : String) (r : List PNode)
    (hb : bOk (some (PNode.text v)) r.head? = true) (x : String) :
    accCompat (PNode.text x :: acc) r = true := by
  cases r with
  | nil => rfl
  | cons r0 rr => cases r0 <;> simp_all [bOk, accCompat]

/-- The optimizer is the identity on lists already in normal form (given a
compatible accumulator): it only reverses the accumulator back in front. -/
theorem optGo_id : ∀ k l acc, szL l ≤ k → nfL l = true → accCompat acc l = true →
    optGo acc l = acc.reverse ++ l := by
  intro k
  induction k with
  | zero =>
    intro l acc hsz hl hc
    match l with
    | [] => simp [optGo]
    | n :: rest =>
      exfalso
      have := szN_pos n
      simp [szL] at hsz
      omega
  | succ k ih =>
    intro l acc hsz hl hc
    match l with
    | [] => simp [optGo]
    | n :: rest =>
      have hrest : szL rest ≤ k := by
        have := szN_pos n
        simp [szL] at hsz
        omega
      rw [nfL_cons] at hl
      obtain ⟨hnode, hb, hnfrest⟩ := hl
      rw [show optGo acc (n :: rest) = optGo (optPush acc (optNode1 n)) rest from by
        simp [optGo]]
      match n with
      | PNode.text v =>
        have hpush : optPush acc (optNode1 (PNode.text v)) = PNode.text v :: acc := by
          match acc with
          | [] => exact optPush_nil _
          | a :: accRest =>
            match a with
            | PNode.text w => exact absurd hc (by simp [accCompat])
            | PNode.element t at_ cs => exact optPush_text_nontext_head _ _ _ (by rfl)
            | PNode.expr c => exact optPush_text_nontext_head _ _ _ (by rfl)
        rw [hpush]
        rw [ih rest (PNode.text v :: acc) hrest hnfrest (accCompat_of_bOk acc v rest hb v)]
        simp

      | PNode.element t a cs =>
        have hcs : szL cs ≤ k := by
          simp [szL, szN] at hsz
          omega
        have hinner : optGo [] cs = cs := by
          have := ih cs [] hcs (by simpa [nfNode] using hnode) (accCompat_nil_left cs)
          simpa using this
        have hnode1 : optNode1 (PNode.element t a cs) = PNode.element t a cs := by
          simp [optNode1, hinner]
        rw [hnode1, optPush_not_text _ _ (by rfl)]
        rw [ih rest (PNode.element t a cs :: acc) hrest hnfrest
          (accCompat_head_nontext _ _ _ (by rfl))]
        simp
      | PNode.expr c =>
        rw [show optNode1 (PNode.expr c) = PNode.expr c from rfl, optPush_not_text _ _ (by rfl)]
        rw [ih rest (PNode.expr c :: acc) hrest hnfrest (accCompat_head_nontext _ _ _ (by rfl))]
        simp

/-- Claim C9: the optimizer is idempotent — one pass reaches a fixed point of
adjacent-text merging, recursively inside element children. -/
theorem claim_C9_optimize_idempotent (ast : List PNode) :
    optimize (optimize ast) = optimize ast := by
  have h1 : nfL (optimize ast) = true := optGo_nf (szL ast) ast [] le_rfl rfl
  have h2 := optGo_id (szL (optimize ast)) (optimize ast) [] le_rfl h1
    (accCompat_nil_left _)
  simpa [optimize] using h2

/-!  Code generation: component tags and attribute serialization. -/

theorem isComponentTag_true_of_upper (tag : String) (c : Char) (rest : List Char)
    (hdata : tag.data = c :: rest) (h1 : 'A' ≤ c) (h2 : c ≤ 'Z') :
    isComponentTag tag = true := by
  unfold isComponentTag
  rw [hdata]
  simp only [decide_eq_true_eq, Bool.and_eq_true]
  exact ⟨by exact_mod_cast h1, by exact_mod_cast h2⟩

theorem isComponentTag_false_of_not_upper (tag : String) (c : Char) (rest : List Char)
    (hdata : tag.data = c :: rest) (h : ¬('A' ≤ c ∧ c ≤ 'Z')) :
    isComponentTag tag = false := by
  unfold isComponentTag
  rw [hdata]
  simp only [Bool.and_eq_false_iff, decide_eq_false_iff_not]
  by_cases h1 : 'A' ≤ c
  · right
    intro h2
    exact h ⟨h1, by exact_mod_cast h2⟩
  · left
    intro h2
    exact h1 (by exact_mod_cast h2)

/-- Claim C4: uppercase-first tags are emitted as bare component references,
all other tags as quoted strings; and the MyButton template compiles through
the full pipeline to exactly the expected call, with the handler attribute
value unquoted. -/
theorem claim_C4_component_tag_convention :
    (∀ tag attrs children c rest, tag.data = c :: rest → 'A' ≤ c → c ≤ 'Z' →
      ∃ s, genNode (PNode.element tag attrs children) = "h(" ++ tag ++ ", " ++ s) ∧
    (∀ tag attrs children c rest, tag.data = c :: rest → ¬('A' ≤ c ∧ c ≤ 'Z') →
      ∃ s, genNode (PNode.element tag attrs children) = "h(" ++ jsonQuote tag ++ ", " ++ s) ∧
    pipeline 99 "<MyButton label=\"Save\" onClick=\x7bhandleSave\x7d>Click me</MyButton>" =
      some "h(MyButton, \x7b\"label\":\"Save\",\"onClick\":handleSave\x7d, \"Click me\")" := by
  refine ⟨?_, ?_, rfl⟩
  · intro tag attrs children c rest hdata h1 h2
    rw [show genNode (PNode.element tag attrs children) =
      (let props := buildProps attrs
       let childStr := String.intercalate ", " ((genKids children).filter (fun s => s ≠ ""))
       let tagExpr := if isComponentTag tag then tag else jsonQuote tag
       if childStr = "" then "h(" ++ tagExpr ++ ", " ++ props ++ ")"
       else "h(" ++ tagExpr ++ ", " ++ props ++ ", " ++ childStr ++ ")") from by
        simp [genNode]]
    simp only [isComponentTag_true_of_upper tag c rest hdata h1 h2, if_true]
    by_cases hcs : String.intercalate ", " ((genKids children).filter (fun s => s ≠ "")) = ""
    · rw [if_pos hcs]
      exact ⟨buildProps attrs ++ ")", by rw [String.append_assoc, String.append_assoc]⟩
    · rw [if_neg hcs]
      refine ⟨buildProps attrs ++ ", " ++
        String.intercalate ", " ((genKids children).filter (fun s => s ≠ "")) ++ ")", ?_⟩
      simp [String.append_assoc]
  · intro tag attrs children c rest hdata h
    rw [show genNode (PNode.element tag attrs children) =
      (let props := buildProps attrs
       let childStr := String.intercalate ", " ((genKids children).filter (fun s => s ≠ ""))
       let tagExpr := if isComponentTag tag then tag else jsonQuote tag
       if childStr = "" then "h(" ++ tagExpr ++ ", " ++ props ++ ")"
       else "h(" ++ tagExpr ++ ", " ++ props ++ ", " ++ childStr ++ ")") from by
        simp [genNode]]
    simp only [isComponentTag_false_of_not_upper tag c rest hdata h, if_false, Bool.false_eq_true]
    by_cases hcs : String.intercalate ", " ((genKids children).filter (fun s => s ≠ "")) = ""
    · rw [if_pos hcs]
      exact ⟨buildProps attrs ++ ")", by rw [String.append_assoc, String.append_assoc]⟩
    · rw [if_neg hcs]
      refine ⟨buildProps attrs ++ ", " ++
        String.intercalate ", " ((genKids children).filter (fun s => s ≠ "")) ++ ")", ?_⟩
      simp [String.append_assoc]

/-- Witness for claim C4 at the MyButton element. -/
theorem claim_C4_witness :
    ∃ s, genNode (PNode.element "MyButton" [("label", some "Save"), ("onClick", some "handleSave")]
      [PNode.text "Click me"]) = "h(" ++ "MyButton" ++ ", " ++ s :=
  claim_C4_component_tag_convention.1 "MyButton"
    [("label", some "Save"), ("onClick", some "handleSave")] [PNode.text "Click me"]
    'M' "yButton".data rfl (by decide) (by decide)

/-- Claim C5 counterexample: through the full pipeline, the brace-wrapped
source attribute `value=\x7bcount\x7d` is emitted as the JSON-quoted literal
`"count"`, not as the unwrapped expression `count` the claim requires (the
lexer already strips the braces before the attribute value reaches
`buildProps`).  This is the output the repository's own integration test
expects. -/
theorem claim_C5_counterexample :
    pipeline 99 "<input value=\x7bcount\x7d disabled>" =
        some "h(\"input\", \x7b\"value\":\"count\",\"disabled\":null\x7d)" ∧
      pipeline 99 "<input value=\x7bcount\x7d disabled>" ≠
        some "h(\"input\", \x7b\"value\":count,\"disabled\":null\x7d)" := by
  constructor
  · rfl
  · intro h
    rw [show pipeline 99 "<input value=\x7bcount\x7d disabled>" =
      some "h(\"input\", \x7b\"value\":\"count\",\"disabled\":null\x7d)" from rfl] at h
    simp at h

/-- Claim C5 (amended): `buildProps` emits the unwrapped inner text for an
attribute whose stored value string is itself brace-wrapped, the JSON-quoted
literal for a non-braced non-handler attribute, and `null` for a null/empty
value; but through the full pipeline the lexer strips attribute braces, so a
braced source attribute under a non-handler key arrives unbraced and is
JSON-quoted (as the repository's integration test expects). -/
theorem claim_C5_attribute_serialization :
    (∀ k v, bracedCharCode v = true →
      propEntry k (some v) = "\"" ++ k ++ "\":" ++ sliceTrim v) ∧
    (∀ k v, v ≠ "" → bracedCharCode v = false → isHandlerKey k = false →
      propEntry k (some v) = "\"" ++ k ++ "\":" ++ jsonQuote v) ∧
    (∀ k, propEntry k none = "\"" ++ k ++ "\":null" ∧
      propEntry k (some "") = "\"" ++ k ++ "\":null") ∧
    (tokenize 99 "<input value=\x7bcount\x7d disabled>" =
      some [Tok.tagOpen "input", Tok.attrName "value", Tok.attrValue "count",
            Tok.attrName "disabled", Tok.attrName "disabled", Tok.eof]) ∧
    pipeline 99 "<input value=\x7bcount\x7d disabled>" =
      some "h(\"input\", \x7b\"value\":\"count\",\"disabled\":null\x7d)" := by
  refine ⟨?_, ?_, ?_, rfl, rfl⟩
  · intro k v hb
    have hv : v ≠ "" := by
      intro h
      rw [h] at hb
      simp [bracedCharCode] at hb
    simp [propEntry, hv, hb]
  · intro k v hv hb hk
    simp [propEntry, hv, hb, hk]
  · intro k
    exact ⟨rfl, rfl⟩

/-- Witness for claim C5's amended serialization rules at concrete attributes. -/
theorem claim_C5_witness :
    propEntry "data" (some (lbraceS ++ "user.id" ++ rbraceS)) = "\"data\":user.id" ∧
      propEntry "label" (some "Save") = "\"label\":\"Save\"" := by
  constructor
  · rw [claim_C5_attribute_serialization.1 "data" (lbraceS ++ "user.id" ++ rbraceS) (by decide)]
    rfl
  · rw [claim_C5_attribute_serialization.2.1 "label" "Save" (by decide) (by decide) (by decide)]
    rfl

/-- Claim C8: `compile` never propagates an exception — whatever the `try`
body produces, the result is never a thrown exception; the top-level `catch`
maps any thrown exception to the diagnostic fallback expression; and the
fallback renders the raw template with quotes and newlines escaped inside an
`h("pre", ...)` block. -/
theorem claim_C8_compile_never_throws :
    (∀ template fuel e, compileRun fuel template ≠ JsOut.thrown e) ∧
    (∀ template e, compileCatch template (JsOut.thrown e) = JsOut.ret (fallbackExpr template)) ∧
    fallbackExpr "a\"b\nc" = "h(\"pre\",null,\"a\\\"b\\nc\")" := by
  refine ⟨?_, fun template e => rfl, rfl⟩
  intro template fuel e
  unfold compileRun compileCatch
  cases compileBody fuel template <;> simp

/-!  Reactive core results. -/

/-- `subs.forEach(fn => fn())` bumps each subscriber once per occurrence. -/
theorem foldBump_count : ∀ (l : List Nat) (c : Nat → Nat) (x : Nat),
    (l.foldl (fun c sub => updF c sub (c sub + 1)) c) x = c x + l.count x := by
  intro l
  induction l with
  | nil => intro c x; simp
  | cons a l ih =>
    intro c x
    rw [List.foldl_cons, ih]
    by_cases hx : x = a
    · subst hx
      simp [updF, List.count_cons]
      omega
    · simp [updF, hx, List.count_cons, Ne.symm hx]

theorem runSubs_counts (s : Nat) (w : RWorld) (x : Nat) :
    (runSubs s w).counts x = w.counts x + (w.subs s).count x :=
  foldBump_count (w.subs s) w.counts x

theorem szC_pos (c : Cmd) : 1 ≤ szC c := by
  cases c <;> simp [szC]

/-- While the batching flag is set, executing commands invokes no subscriber
(the counters are untouched), and the flag and subscriber lists are
preserved: notifications are only recorded in `pending`. -/
theorem execCmds_batching_preserves : ∀ k cs (w : RWorld), szCs cs ≤ k →
    w.isBatching = true →
    (execCmds cs w).counts = w.counts ∧ (execCmds cs w).isBatching = true ∧
      (execCmds cs w).subs = w.subs := by
  intro k
  induction k with
  | zero =>
    intro cs w hsz hw
    match cs with
    | [] => exact ⟨rfl, hw, rfl⟩
    | c :: rest =>
      exfalso
      have := szC_pos c
      simp [szCs] at hsz
      omega
  | succ k ih =>
    intro cs w hsz hw
    match cs with
    | [] => exact ⟨rfl, hw, rfl⟩
    | c :: rest =>
      have hrest : szCs rest ≤ k := by
        have := szC_pos c
        simp [szCs] at hsz
        omega
      have hstep : (execCmd c w).counts = w.counts ∧ (execCmd c w).isBatching = true ∧
          (execCmd c w).subs = w.subs := by
        match c with
        | Cmd.setSig s v =>
          by_cases hv : v = w.vals s
          · simp [execCmd, hv, hw]
          · simp [execCmd, hv, hw]
        | Cmd.readSig s => exact ⟨rfl, hw, rfl⟩
        | Cmd.batch body =>
          have hbody : szCs body ≤ k := by
            simp [szCs, szC] at hsz
            omega
          have hinner := ih body { w with isBatching := true } hbody rfl
          have heq : execCmd (Cmd.batch body) w =
              { execCmds body { w with isBatching := true } with isBatching := w.isBatching } := by
            simp [execCmd, hw]
          rw [heq]
          exact ⟨hinner.1, hw, hinner.2.2⟩
      have hchain := ih rest (execCmd c w) hrest hstep.2.1
      refine ⟨?_, hchain.2.1, ?_⟩
      · rw [show execCmds (c :: rest) w = execCmds rest (execCmd c w) from rfl]
        rw [hchain.1, hstep.1]
      · rw [show execCmds (c :: rest) w = execCmds rest (execCmd c w) from rfl]
        rw [hchain.2.2, hstep.2.2]

/-- Claim C1 (the code violates it): inside one batch, two value-changing
writes to the same signal enqueue two distinct `runAll` closures (the `Set`
cannot deduplicate them, as each `set` call allocates a fresh closure), so the
single subscriber is notified twice at the flush — not "at most once".  The
deferral half of the claim holds at this input: during the batch body no
notification runs. -/
theorem claim_C1_batch_notification_count :
    (execCmds [Cmd.setSig 0 1, Cmd.setSig 0 2]
        { demoWorld with isBatching := true }).counts 0 = 0 ∧
      (execCmd (Cmd.batch [Cmd.setSig 0 1, Cmd.setSig 0 2]) demoWorld).counts 0 = 2 :=
  ⟨rfl, rfl⟩

/-- Claim C3: outside a batch, a value-changing `set` stores the value and
synchronously invokes every previously registered subscriber exactly once
(subscriber lists built by `subscribe` are duplicate-free), leaves every
non-subscriber untouched, and an immediately following same-value `set` is a
complete no-op. -/
theorem claim_C3_set_notifies_once_then_nop :
    ∀ (w : RWorld) (s : Nat) (v1 : Int),
      w.isBatching = false → (w.subs s).Nodup → v1 ≠ w.vals s →
      ((execCmd (Cmd.setSig s v1) w).vals s = v1) ∧
      (∀ sub, sub ∈ w.subs s →
        (execCmd (Cmd.setSig s v1) w).counts sub = w.counts sub + 1) ∧
      (∀ sub, sub ∉ w.subs s →
        (execCmd (Cmd.setSig s v1) w).counts sub = w.counts sub) ∧
      execCmd (Cmd.setSig s v1) (execCmd (Cmd.setSig s v1) w) =
        execCmd (Cmd.setSig s v1) w := by
  intro w s v1 hb hnd hv
  have heq : execCmd (Cmd.setSig s v1) w = runSubs s { w with vals := updF w.vals s v1 } := by
    simp [execCmd, hv, hb]
  refine ⟨?_, ?_, ?_, ?_⟩
  · rw [heq]
    simp [runSubs, updF]
  · intro sub hsub
    rw [heq, runSubs_counts]
    simp [List.count_eq_one_of_mem hnd hsub]
  · intro sub hsub
    rw [heq, runSubs_counts]
    simp [List.count_eq_zero_of_not_mem hsub]
  · have hval : (execCmd (Cmd.setSig s v1) w).vals s = v1 := by
      rw [heq]
      simp [runSubs, updF]
    rw [show execCmd (Cmd.setSig s v1) (execCmd (Cmd.setSig s v1) w) =
      (if v1 = (execCmd (Cmd.setSig s v1) w).vals s then execCmd (Cmd.setSig s v1) w
       else (let w1 := { execCmd (Cmd.setSig s v1) w with
               vals := updF (execCmd (Cmd.setSig s v1) w).vals s v1 }
             if w1.isBatching then { w1 with pending := w1.pending ++ [s] }
             else runSubs s w1)) from by simp [execCmd]]
    rw [hval]
    simp

/-- Witness for claim C3 on the demo world. -/
theorem claim_C3_witness :
    (execCmd (Cmd.setSig 0 5) demoWorld).vals 0 = 5 ∧
      (execCmd (Cmd.setSig 0 5) demoWorld).counts 0 = demoWorld.counts 0 + 1 := by
  have h := claim_C3_set_notifies_once_then_nop demoWorld 0 5 rfl (by decide)
    (by decide)
  exact ⟨h.1, h.2.1 0 (by decide)⟩

/-- Claim C10: a write inside a batch is immediately visible to later reads in
the same batch body (the stored value updates right away) while no subscriber
runs during the body; the subscribers run once the outermost batch exits.
Immediate visibility holds for any batching world; the flush accounting is
stated for a world with no previously pending notifications. -/
theorem claim_C10_batched_write_visible_before_flush :
    ∀ (w : RWorld) (s : Nat) (v1 : Int),
      w.isBatching = false → v1 ≠ w.vals s → w.pending = [] →
      (∀ w' : RWorld, w'.isBatching = true → (execCmd (Cmd.setSig s v1) w').vals s = v1) ∧
      ((execCmds [Cmd.setSig s v1, Cmd.readSig s] { w with isBatching := true }).log =
        w.log ++ [v1]) ∧
      ((execCmds [Cmd.setSig s v1, Cmd.readSig s]
        { w with isBatching := true }).counts = w.counts) ∧
      ((w.subs s).Nodup → ∀ sub ∈ w.subs s,
        (execCmd (Cmd.batch [Cmd.setSig s v1, Cmd.readSig s]) w).counts sub =
          w.counts sub + 1) := by
  intro w s v1 hb hv hp
  have hset : ∀ w' : RWorld, w'.isBatching = true → v1 ≠ w'.vals s →
      execCmd (Cmd.setSig s v1) w' =
        { w' with
          vals := updF w'.vals s v1
          pending := w'.pending ++ [s] } := by
    intro w' hw' hv'
    simp [execCmd, hv', hw']
  have hbody : execCmds [Cmd.setSig s v1, Cmd.readSig s] { w with isBatching := true } =
      { w with
        isBatching := true
        vals := updF w.vals s v1
        pending := w.pending ++ [s]
        log := w.log ++ [v1] } := by
    rw [show execCmds [Cmd.setSig s v1, Cmd.readSig s] { w with isBatching := true } =
      execCmd (Cmd.readSig s) (execCmd (Cmd.setSig s v1) { w with isBatching := true })
      from rfl]
    rw [hset { w with isBatching := true } rfl hv]
    simp [execCmd, updF]
  refine ⟨?_, ?_, ?_, ?_⟩
  · intro w' hw'
    by_cases hv' : v1 = w'.vals s
    · simp [execCmd, ← hv']
    · rw [hset w' hw' hv']
      simp [updF]
  · rw [hbody]
  · rw [hbody]
  · intro hnd sub hsub
    have hbatch : execCmd (Cmd.batch [Cmd.setSig s v1, Cmd.readSig s]) w =
        flushW { execCmds [Cmd.setSig s v1, Cmd.readSig s] { w with isBatching := true }
          with isBatching := w.isBatching } := by
      simp [execCmd, hb]
    rw [hbatch, hbody, hp]
    show (flushW _).counts sub = _
    rw [show flushW { w with
        isBatching := w.isBatching
        vals := updF w.vals s v1
        pending := ([] : List Nat) ++ [s]
        log := w.log ++ [v1] } =
      runSubs s { w with
        isBatching := w.isBatching
        vals := updF w.vals s v1
        pending := []
        log := w.log ++ [v1] } from by simp [flushW]]
    rw [runSubs_counts]
    simp [List.count_eq_one_of_mem hnd hsub]

/-- Witness for claim C10 on the demo world. -/
theorem claim_C10_witness :
    ((execCmds [Cmd.setSig 0 7, Cmd.readSig 0]
        { demoWorld with isBatching := true }).log = demoWorld.log ++ [7]) ∧
      ((execCmd (Cmd.batch [Cmd.setSig 0 7, Cmd.readSig 0]) demoWorld).counts 0 =
        demoWorld.counts 0 + 1) := by
  have h := claim_C10_batched_write_visible_before_flush demoWorld 0 7 rfl (by decide) rfl
  exact ⟨h.2.1, h.2.2.2 (by decide) 0 (by decide)⟩

theorem itemKey_eq_getD (it : Item) (i : Nat) (h : it.id.isSome = true) :
    it.id.getD i = itemKey it := by
  cases hid : it.id with
  | none => rw [hid] at h; simp at h
  | some k => simp [itemKey, hid]

theorem lookupFind_nil (k : Nat) : lookupFind [] k = none := rfl

theorem lookupFind_cons (kv : Nat × EachRec) (rest : List (Nat × EachRec)) (k : Nat) :
    lookupFind (kv :: rest) k = if kv.1 = k then some kv.2 else lookupFind rest k := by
  by_cases h : kv.1 = k <;> simp [lookupFind, List.find?_cons, h]

theorem find_mapUpd_other (l : List (Nat × EachRec)) (k k2 : Nat) (r : EachRec)
    (h : k ≠ k2) :
    lookupFind (l.map (fun kv => if kv.1 = k2 then (k2, r) else kv)) k = lookupFind l k := by
  induction l with
  | nil => rfl
  | cons kv rest ih =>
    by_cases hk : kv.1 = k2
    · simp only [List.map_cons, if_pos hk, lookupFind_cons]
      rw [if_neg (by simpa using Ne.symm h), if_neg (by rw [hk]; exact Ne.symm h)]
      exact ih
    · simp only [List.map_cons, if_neg hk, lookupFind_cons]
      by_cases hkk : kv.1 = k
      · rw [if_pos hkk, if_pos hkk]
      · rw [if_neg hkk, if_neg hkk]
        exact ih

theorem find_appendOne_other (l : List (Nat × EachRec)) (k k2 : Nat) (r : EachRec)
    (h : k ≠ k2) : lookupFind (l ++ [(k2, r)]) k = lookupFind l k := by
  induction l with
  | nil => simp [lookupFind_cons, lookupFind_nil, Ne.symm h]
  | cons kv rest ih =>
    simp only [List.cons_append, lookupFind_cons]
    by_cases hkk : kv.1 = k
    · rw [if_pos hkk, if_pos hkk]
    · rw [if_neg hkk, if_neg hkk]
      exact ih

theorem mapSet_find_other (l : List (Nat × EachRec)) (k k2 : Nat) (r : EachRec)
    (h : k ≠ k2) : lookupFind (mapSet l k2 r) k = lookupFind l k := by
  unfold mapSet
  split
  · exact find_mapUpd_other l k k2 r h
  · exact find_appendOne_other l k k2 r h

theorem find_mapUpd_self (l : List (Nat × EachRec)) (k : Nat) (r : EachRec)
    (hany : (l.any fun kv => kv.1 = k) = true) :
    lookupFind (l.map (fun kv => if kv.1 = k then (k, r) else kv)) k = some r := by
  induction l with
  | nil => simp at hany
  | cons kv rest ih =>
    by_cases hk : kv.1 = k
    · simp [List.map_cons, if_pos hk, lookupFind_cons]
    · simp only [List.map_cons, if_neg hk, lookupFind_cons, if_neg hk]
      apply ih
      simp only [List.any_cons, Bool.or_eq_true] at hany
      rcases hany with h1 | h2
      · exact absurd (by simpa using h1) hk
      · simpa using h2

theorem find_appendOne_self (l : List (Nat × EachRec)) (k : Nat) (r : EachRec)
    (hnone : ∀ kv ∈ l, kv.1 ≠ k) : lookupFind (l ++ [(k, r)]) k = some r := by
  induction l with
  | nil => simp [lookupFind_cons]
  | cons kv rest ih =>
    simp only [List.cons_append, lookupFind_cons]
    rw [if_neg (hnone kv (by simp))]
    exact ih (fun kv2 h2 => hnone kv2 (by simp [h2]))

theorem mapSet_find_self (l : List (Nat × EachRec)) (k : Nat) (r : EachRec) :
    lookupFind (mapSet l k r) k = some r := by
  unfold mapSet
  split
  · rename_i hany
    exact find_mapUpd_self l k r hany
  · rename_i hany
    apply find_appendOne_self
    intro kv hkv
    simp only [List.any_eq_true, not_exists, not_and] at hany
    simpa using hany kv hkv

theorem filter_find_other (l : List (Nat × EachRec)) (k k2 : Nat) (h : k ≠ k2) :
    lookupFind (l.filter (fun kv => kv.1 ≠ k2)) k = lookupFind l k := by
  induction l with
  | nil => rfl
  | cons kv rest ih =>
    by_cases hk : kv.1 = k2
    · rw [show (kv :: rest).filter (fun kv => kv.1 ≠ k2) = rest.filter (fun kv => kv.1 ≠ k2)
        from by simp [List.filter_cons, hk]]
      rw [ih, lookupFind_cons, if_neg (by rw [hk]; exact Ne.symm h)]
    · rw [show (kv :: rest).filter (fun kv => kv.1 ≠ k2) =
        kv :: rest.filter (fun kv => kv.1 ≠ k2) from by simp [List.filter_cons, hk]]
      rw [lookupFind_cons, lookupFind_cons, ih]

theorem filter_find_self (l : List (Nat × EachRec)) (k : Nat) :
    lookupFind (l.filter (fun kv => kv.1 ≠ k)) k = none := by
  induction l with
  | nil => rfl
  | cons kv rest ih =>
    by_cases hk : kv.1 = k
    · rw [show (kv :: rest).filter (fun kv => kv.1 ≠ k) = rest.filter (fun kv => kv.1 ≠ k)
        from by simp [List.filter_cons, hk]]
      exact ih
    · rw [show (kv :: rest).filter (fun kv => kv.1 ≠ k) =
        kv :: rest.filter (fun kv => kv.1 ≠ k) from by simp [List.filter_cons, hk]]
      rw [lookupFind_cons, if_neg hk]
      exact ih

theorem mapSet_mem_other (l : List (Nat × EachRec)) (k2 : Nat) (r : EachRec)
    (kv : Nat × EachRec) (hm : kv ∈ mapSet l k2 r) (hk : kv.1 ≠ k2) : kv ∈ l := by
  unfold mapSet at hm
  split at hm
  · rw [List.mem_map] at hm
    obtain ⟨kv0, hkv0, heq⟩ := hm
    by_cases h0 : kv0.1 = k2
    · rw [if_pos h0] at heq
      exact absurd (by rw [← heq]) hk
    · rw [if_neg h0] at heq
      rw [← heq]
      exact hkv0
  · rw [List.mem_append] at hm
    rcases hm with h1 | h2
    · exact h1
    · simp only [List.mem_singleton] at h2
      exact absurd (by rw [h2]) hk

theorem insBeforeMarker_shape (pre tl : List DomN) (n : DomN)
    (hm : DomN.marker ∉ pre) :
    insBeforeMarker (pre ++ DomN.marker :: tl) n = pre ++ n :: DomN.marker :: tl := by
  induction pre with
  | nil => rfl
  | cons d pre ih =>
    match d with
    | DomN.marker => exact absurd (by simp) hm
    | DomN.node nid =>
      show DomN.node nid :: insBeforeMarker (pre ++ DomN.marker :: tl) n = _
      rw [ih (fun h => hm (by simp [h]))]
      rfl

/-- Phase 1 of the `each` effect, characterized: the visited-key list is the
array's keys, renders are appended exactly for the keys missing from the map
(in array order, with strictly increasing fresh node ids), and every fresh
node is inserted immediately before the trailing anchor. -/
theorem eachUpd_master : ∀ (B : List Item) (i : Nat) (used : List Nat) (st : EachSt)
    (pre : List DomN),
    (∀ it ∈ B, (Item.id it).isSome = true) → ((B.map itemKey).Nodup) →
    st.dom = pre ++ [DomN.marker] → DomN.marker ∉ pre →
    ∃ d,
      (eachUpd B i used st).1.renders = st.renders ++ d ∧
      (eachUpd B i used st).1.dom = pre ++ (d.map fun e => DomN.node e.1) ++ [DomN.marker] ∧
      (∀ e ∈ d, st.nextId ≤ e.1 ∧ e.1 < (eachUpd B i used st).1.nextId) ∧
      st.nextId ≤ (eachUpd B i used st).1.nextId ∧
      ((d.map fun e => e.1).Nodup) ∧
      ((d.map fun e => itemKey e.2.1) =
        ((B.filter fun it => (lookupFind st.lookup (itemKey it)).isNone).map itemKey)) ∧
      (eachUpd B i used st).2 = used ++ B.map itemKey := by
  intro B
  induction B with
  | nil =>
    intro i used st pre hids hnd hdom hm
    refine ⟨[], by simp [eachUpd], by simpa [eachUpd] using hdom, by simp, by simp [eachUpd],
      by simp, by simp [eachUpd], by simp [eachUpd]⟩
  | cons it rest ih =>
    intro i used st pre hids hnd hdom hm
    have hkey : it.id.getD i = itemKey it := itemKey_eq_getD it i (hids it (by simp))
    have hidsR : ∀ it2 ∈ rest, (Item.id it2).isSome = true :=
      fun it2 h2 => hids it2 (by simp [h2])
    have hnd1 : ((itemKey it) :: rest.map itemKey).Nodup := by simpa using hnd
    have hndR : ((rest.map itemKey).Nodup) := List.Nodup.of_cons hnd1
    have hknotin : itemKey it ∉ rest.map itemKey := (List.nodup_cons.mp hnd1).1
    have hfiltercongr : ∀ (r : EachRec),
        (rest.filter fun it2 =>
          (lookupFind (mapSet st.lookup (itemKey it) r) (itemKey it2)).isNone) =
        (rest.filter fun it2 => (lookupFind st.lookup (itemKey it2)).isNone) := by
      intro r
      apply List.filter_congr
      intro it2 h2
      rw [mapSet_find_other]
      intro he
      exact hknotin (by rw [← he]; exact List.mem_map_of_mem _ h2)
    match hfind : lookupFind st.lookup (itemKey it) with
    | some rec0 =>
      have hstep : eachUpd (it :: rest) i used st =
          eachUpd rest (i + 1) (used ++ [itemKey it])
            { st with lookup := mapSet st.lookup (itemKey it) ⟨it, i, rec0.node⟩ } := by
        show (match lookupFind st.lookup (it.id.getD i) with
          | none => eachUpd rest (i + 1) (used ++ [it.id.getD i]) _
          | some rec0 => eachUpd rest (i + 1) (used ++ [it.id.getD i])
              { st with lookup := mapSet st.lookup (it.id.getD i) ⟨it, i, rec0.node⟩ }) = _
        rw [hkey, hfind]
      rw [hstep]
      obtain ⟨d, h1, h2, h3, h4, h5, h6, h7⟩ := ih (i + 1) (used ++ [itemKey it])
        { st with lookup := mapSet st.lookup (itemKey it) ⟨it, i, rec0.node⟩ }
        pre hidsR hndR hdom hm
      refine ⟨d, h1, h2, h3, h4, h5, ?_, by rw [h7]; simp⟩
      rw [h6]
      show (rest.filter fun it2 =>
          (lookupFind (mapSet st.lookup (itemKey it) ⟨it, i, rec0.node⟩)
            (itemKey it2)).isNone).map itemKey = _
      rw [hfiltercongr]
      rw [show ((it :: rest).filter fun it2 =>
          (lookupFind st.lookup (itemKey it2)).isNone) =
        (rest.filter fun it2 => (lookupFind st.lookup (itemKey it2)).isNone) from by
          rw [List.filter_cons, hfind]
          simp]
    | none =>
      have hstep : eachUpd (it :: rest) i used st =
          eachUpd rest (i + 1) (used ++ [itemKey it])
            { st with
              nextId := st.nextId + 1
              renders := st.renders ++ [(st.nextId, it, i)]
              lookup := mapSet st.lookup (itemKey it) ⟨it, i, DomN.node st.nextId⟩
              dom := insBeforeMarker st.dom (DomN.node st.nextId) } := by
        show (match lookupFind st.lookup (it.id.getD i) with
          | none => eachUpd rest (i + 1) (used ++ [it.id.getD i])
              { st with
                nextId := st.nextId + 1
                renders := st.renders ++ [(st.nextId, it, i)]
                lookup := mapSet st.lookup (it.id.getD i) ⟨it, i, DomN.node st.nextId⟩
                dom := insBeforeMarker st.dom (DomN.node st.nextId) }
          | some rec0 => eachUpd rest (i + 1) (used ++ [it.id.getD i])
              { st with lookup := mapSet st.lookup (it.id.getD i) ⟨it, i, rec0.node⟩ }) = _
        rw [hkey, hfind]
      rw [hstep]
      have hdom1 : insBeforeMarker st.dom (DomN.node st.nextId) =
          (pre ++ [DomN.node st.nextId]) ++ [DomN.marker] := by
        rw [hdom, insBeforeMarker_shape pre [] _ hm]
        simp
      have hm1 : DomN.marker ∉ pre ++ [DomN.node st.nextId] := by
        simp [hm]
      obtain ⟨d, h1, h2, h3, h4, h5, h6, h7⟩ := ih (i + 1) (used ++ [itemKey it])
        { st with
          nextId := st.nextId + 1
          renders := st.renders ++ [(st.nextId, it, i)]
          lookup := mapSet st.lookup (itemKey it) ⟨it, i, DomN.node st.nextId⟩
          dom := insBeforeMarker st.dom (DomN.node st.nextId) }
        (pre ++ [DomN.node st.nextId]) hidsR hndR (by simpa using hdom1) hm1
      have h4' : st.nextId + 1 ≤ (eachUpd rest (i + 1) (used ++ [itemKey it])
          { st with
            nextId := st.nextId + 1
            renders := st.renders ++ [(st.nextId, it, i)]
            lookup := mapSet st.lookup (itemKey it) ⟨it, i, DomN.node st.nextId⟩
            dom := insBeforeMarker st.dom (DomN.node st.nextId) }).1.nextId := by
        simpa using h4
      refine ⟨(st.nextId, it, i) :: d, ?_, ?_, ?_, by omega, ?_, ?_, by rw [h7]; simp⟩
      · rw [h1]
        simp
      · rw [h2]
        simp
      · intro e he
        rcases List.mem_cons.mp he with he1 | he2
        · subst he1
          exact ⟨le_refl _, by omega⟩
        · have h3e := h3 e he2
          simp only at h3e
          exact ⟨by omega, h3e.2⟩
      · rw [List.map_cons, List.nodup_cons]
        refine ⟨?_, h5⟩
        intro hmem
        rw [List.mem_map] at hmem
        obtain ⟨e, he, heq⟩ := hmem
        have h3e := h3 e he
        simp only at h3e
        omega
      · rw [List.map_cons, h6]
        show _ = ((it :: rest).filter fun it2 =>
          (lookupFind st.lookup (itemKey it2)).isNone).map itemKey
        rw [show ((it :: rest).filter fun it2 =>
            (lookupFind st.lookup (itemKey it2)).isNone) =
          it :: (rest.filter fun it2 => (lookupFind st.lookup (itemKey it2)).isNone) from by
            rw [List.filter_cons, hfind]
            simp]
        rw [show (lookupFind (mapSet st.lookup (itemKey it) ⟨it, i, DomN.node st.nextId⟩) :
            Nat → Option EachRec) = _ from rfl]
        rw [hfiltercongr]
        simp

/-- Keys not in the array are untouched by phase 1. -/
theorem eachUpd_find_other : ∀ (B : List Item) (i : Nat) (used : List Nat) (st : EachSt)
    (k : Nat), (∀ it ∈ B, (Item.id it).isSome = true) → k ∉ B.map itemKey →
    lookupFind (eachUpd B i used st).1.lookup k = lookupFind st.lookup k := by
  intro B
  induction B with
  | nil => intro i used st k _ _; rfl
  | cons it rest ih =>
    intro i used st k hids hk
    have hkey : it.id.getD i = itemKey it := itemKey_eq_getD it i (hids it (by simp))
    have hkne : k ≠ itemKey it := by
      intro he
      exact hk (by rw [he]; simp)
    have hkrest : k ∉ rest.map itemKey := by
      intro hmem
      exact hk (by simp [hmem])
    have hidsR : ∀ it2 ∈ rest, (Item.id it2).isSome = true :=
      fun it2 h2 => hids it2 (by simp [h2])
    match hfind : lookupFind st.lookup (itemKey it) with
    | some rec0 =>
      rw [show eachUpd (it :: rest) i used st =
          eachUpd rest (i + 1) (used ++ [itemKey it])
            { st with lookup := mapSet st.lookup (itemKey it) ⟨it, i, rec0.node⟩ } from by
        show (match lookupFind st.lookup (it.id.getD i) with
          | none => eachUpd rest (i + 1) (used ++ [it.id.getD i])
              { st with
                nextId := st.nextId + 1
                renders := st.renders ++ [(st.nextId, it, i)]
                lookup := mapSet st.lookup (it.id.getD i) ⟨it, i, DomN.node st.nextId⟩
                dom := insBeforeMarker st.dom (DomN.node st.nextId) }
          | some rec0 => eachUpd rest (i + 1) (used ++ [it.id.getD i])
              { st with lookup := mapSet st.lookup (it.id.getD i) ⟨it, i, rec0.node⟩ }) = _
        rw [hkey, hfind]]
      rw [ih (i + 1) _ _ k hidsR hkrest]
      exact mapSet_find_other _ _ _ _ hkne
    | none =>
      rw [show eachUpd (it :: rest) i used st =
          eachUpd rest (i + 1) (used ++ [itemKey it])
            { st with
              nextId := st.nextId + 1
              renders := st.renders ++ [(st.nextId, it, i)]
              lookup := mapSet st.lookup (itemKey it) ⟨it, i, DomN.node st.nextId⟩
              dom := insBeforeMarker st.dom (DomN.node st.nextId) } from by
        show (match lookupFind st.lookup (it.id.getD i) with
          | none => eachUpd rest (i + 1) (used ++ [it.id.getD i])
              { st with
                nextId := st.nextId + 1
                renders := st.renders ++ [(st.nextId, it, i)]
                lookup := mapSet st.lookup (it.id.getD i) ⟨it, i, DomN.node st.nextId⟩
                dom := insBeforeMarker st.dom (DomN.node st.nextId) }
          | some rec0 => eachUpd rest (i + 1) (used ++ [it.id.getD i])
              { st with lookup := mapSet st.lookup (it.id.getD i) ⟨it, i, rec0.node⟩ }) = _
        rw [hkey, hfind]]
      rw [ih (i + 1) _ _ k hidsR hkrest]
      exact mapSet_find_other _ _ _ _ hkne

/-- An entry of the shared map present by key in the array is updated in
place: same rendered node, item signal set to the new item, index signal set
to its position. -/
theorem eachUpd_find_updated : ∀ (B : List Item) (i : Nat) (used : List Nat) (st : EachSt)
    (j : Nat) (it : Item) (r0 : EachRec),
    (∀ it2 ∈ B, (Item.id it2).isSome = true) → ((B.map itemKey).Nodup) →
    B.get? j = some it → lookupFind st.lookup (itemKey it) = some r0 →
    lookupFind (eachUpd B i used st).1.lookup (itemKey it) = some ⟨it, i + j, r0.node⟩ := by
  intro B
  induction B with
  | nil => intro i used st j it r0 _ _ hj; simp at hj
  | cons it0 rest ih =>
    intro i used st j it r0 hids hnd hj hfind0
    have hkey : it0.id.getD i = itemKey it0 := itemKey_eq_getD it0 i (hids it0 (by simp))
    have hnd1 : ((itemKey it0) :: rest.map itemKey).Nodup := by simpa using hnd
    have hidsR : ∀ it2 ∈ rest, (Item.id it2).isSome = true :=
      fun it2 h2 => hids it2 (by simp [h2])
    match j with
    | 0 =>
      have hit : it0 = it := by simpa using hj
      subst hit
      match hfind : lookupFind st.lookup (itemKey it0) with
      | none => rw [hfind] at hfind0; exact absurd hfind0 (by simp)
      | some rec0 =>
        have hrec : rec0 = r0 := by
          rw [hfind] at hfind0
          simpa using hfind0
        subst hrec
        rw [show eachUpd (it0 :: rest) i used st =
            eachUpd rest (i + 1) (used ++ [itemKey it0])
              { st with lookup := mapSet st.lookup (itemKey it0) ⟨it0, i, rec0.node⟩ } from by
          show (match lookupFind st.lookup (it0.id.getD i) with
            | none => eachUpd rest (i + 1) (used ++ [it0.id.getD i])
                { st with
                  nextId := st.nextId + 1
                  renders := st.renders ++ [(st.nextId, it0, i)]
                  lookup := mapSet st.lookup (it0.id.getD i) ⟨it0, i, DomN.node st.nextId⟩
                  dom := insBeforeMarker st.dom (DomN.node st.nextId) }
            | some rec0 => eachUpd rest (i + 1) (used ++ [it0.id.getD i])
                { st with lookup := mapSet st.lookup (it0.id.getD i) ⟨it0, i, rec0.node⟩ }) = _
          rw [hkey, hfind]]
        rw [eachUpd_find_other rest (i + 1) _ _ _ hidsR (List.nodup_cons.mp hnd1).1]
        rw [show i + 0 = i from rfl]
        exact mapSet_find_self _ _ _
    | Nat.succ j' =>
      have hj' : rest.get? j' = some it := by simpa using hj
      have hitmem : it ∈ rest := List.get?_mem hj'
      have hkne : itemKey it ≠ itemKey it0 := by
        intro he
        exact (List.nodup_cons.mp hnd1).1 (by rw [← he]; exact List.mem_map_of_mem _ hitmem)
      match hfind : lookupFind st.lookup (itemKey it0) with
      | some rec0 =>
        rw [show eachUpd (it0 :: rest) i used st =
            eachUpd rest (i + 1) (used ++ [itemKey it0])
              { st with lookup := mapSet st.lookup (itemKey it0) ⟨it0, i, rec0.node⟩ } from by
          show (match lookupFind st.lookup (it0.id.getD i) with
            | none => eachUpd rest (i + 1) (used ++ [it0.id.getD i])
                { st with
                  nextId := st.nextId + 1
                  renders := st.renders ++ [(st.nextId, it0, i)]
                  lookup := mapSet st.lookup (it0.id.getD i) ⟨it0, i, DomN.node st.nextId⟩
                  dom := insBeforeMarker st.dom (DomN.node st.nextId) }
            | some rec0 => eachUpd rest (i + 1) (used ++ [it0.id.getD i])
                { st with lookup := mapSet st.lookup (it0.id.getD i) ⟨it0, i, rec0.node⟩ }) = _
          rw [hkey, hfind]]
        rw [show i + (j' + 1) = (i + 1) + j' from by omega]
        apply ih (i + 1) _ _ j' it r0 hidsR (List.Nodup.of_cons hnd1) hj'
        rw [mapSet_find_other _ _ _ _ hkne]
        exact hfind0
      | none =>
        rw [show eachUpd (it0 :: rest) i used st =
            eachUpd rest (i + 1) (used ++ [itemKey it0])
              { st with
                nextId := st.nextId + 1
                renders := st.renders ++ [(st.nextId, it0, i)]
                lookup := mapSet st.lookup (itemKey it0) ⟨it0, i, DomN.node st.nextId⟩
                dom := insBeforeMarker st.dom (DomN.node st.nextId) } from by
          show (match lookupFind st.lookup (it0.id.getD i) with
            | none => eachUpd rest (i + 1) (used ++ [it0.id.getD i])
                { st with
                  nextId := st.nextId + 1
                  renders := st.renders ++ [(st.nextId, it0, i)]
                  lookup := mapSet st.lookup (it0.id.getD i) ⟨it0, i, DomN.node st.nextId⟩
                  dom := insBeforeMarker st.dom (DomN.node st.nextId) }
            | some rec0 => eachUpd rest (i + 1) (used ++ [it0.id.getD i])
                { st with lookup := mapSet st.lookup (it0.id.getD i) ⟨it0, i, rec0.node⟩ }) = _
          rw [hkey, hfind]]
        rw [show i + (j' + 1) = (i + 1) + j' from by omega]
        apply ih (i + 1) _ _ j' it r0 hidsR (List.Nodup.of_cons hnd1) hj'
        rw [mapSet_find_other _ _ _ _ hkne]
        exact hfind0

/-- Entries whose key is not in the array are carried through phase 1
unchanged (same record object). -/
theorem eachUpd_mem_other : ∀ (B : List Item) (i : Nat) (used : List Nat) (st : EachSt)
    (kv : Nat × EachRec),
    (∀ it ∈ B, (Item.id it).isSome = true) →
    kv ∈ (eachUpd B i used st).1.lookup → kv.1 ∉ B.map itemKey → kv ∈ st.lookup := by
  intro B
  induction B with
  | nil => intro i used st kv _ hm _; exact hm
  | cons it rest ih =>
    intro i used st kv hids hm hk
    have hkey : it.id.getD i = itemKey it := itemKey_eq_getD it i (hids it (by simp))
    have hkne : kv.1 ≠ itemKey it := by
      intro he
      exact hk (by rw [he]; simp)
    have hkrest : kv.1 ∉ rest.map itemKey := by
      intro hmem
      exact hk (by simp [hmem])
    have hidsR : ∀ it2 ∈ rest, (Item.id it2).isSome = true :=
      fun it2 h2 => hids it2 (by simp [h2])
    match hfind : lookupFind st.lookup (itemKey it) with
    | some rec0 =>
      rw [show eachUpd (it :: rest) i used st =
          eachUpd rest (i + 1) (used ++ [itemKey it])
            { st with lookup := mapSet st.lookup (itemKey it) ⟨it, i, rec0.node⟩ } from by
        show (match lookupFind st.lookup (it.id.getD i) with
          | none => eachUpd rest (i + 1) (used ++ [it.id.getD i])
              { st with
                nextId := st.nextId + 1
                renders := st.renders ++ [(st.nextId, it, i)]
                lookup := mapSet st.lookup (it.id.getD i) ⟨it, i, DomN.node st.nextId⟩
                dom := insBeforeMarker st.dom (DomN.node st.nextId) }
          | some rec0 => eachUpd rest (i + 1) (used ++ [it.id.getD i])
              { st with lookup := mapSet st.lookup (it.id.getD i) ⟨it, i, rec0.node⟩ }) = _
        rw [hkey, hfind]] at hm
      exact mapSet_mem_other _ _ _ _ (ih (i + 1) _ _ kv hidsR hm hkrest) hkne
    | none =>
      rw [show eachUpd (it :: rest) i used st =
          eachUpd rest (i + 1) (used ++ [itemKey it])
            { st with
              nextId := st.nextId + 1
              renders := st.renders ++ [(st.nextId, it, i)]
              lookup := mapSet st.lookup (itemKey it) ⟨it, i, DomN.node st.nextId⟩
              dom := insBeforeMarker st.dom (DomN.node st.nextId) } from by
        show (match lookupFind st.lookup (it.id.getD i) with
          | none => eachUpd rest (i + 1) (used ++ [it.id.getD i])
              { st with
                nextId := st.nextId + 1
                renders := st.renders ++ [(st.nextId, it, i)]
                lookup := mapSet st.lookup (it.id.getD i) ⟨it, i, DomN.node st.nextId⟩
                dom := insBeforeMarker st.dom (DomN.node st.nextId) }
          | some rec0 => eachUpd rest (i + 1) (used ++ [it.id.getD i])
              { st with lookup := mapSet st.lookup (it.id.getD i) ⟨it, i, rec0.node⟩ }) = _
        rw [hkey, hfind]] at hm
      exact mapSet_mem_other _ _ _ _ (ih (i + 1) _ _ kv hidsR hm hkrest) hkne

theorem eachRemove_renders : ∀ (entries : List (Nat × EachRec)) (used : List Nat)
    (st : EachSt), (eachRemove entries used st).renders = st.renders ∧
      (eachRemove entries used st).nextId = st.nextId := by
  intro entries
  induction entries with
  | nil => intro used st; exact ⟨rfl, rfl⟩
  | cons kv rest ih =>
    intro used st
    match kv with
    | (k, r) =>
      by_cases hk : k ∈ used
      · rw [show eachRemove ((k, r) :: rest) used st = eachRemove rest used st from by
          simp [eachRemove, hk]]
        exact ih used st
      · rw [show eachRemove ((k, r) :: rest) used st = eachRemove rest used
            { st with
              dom := st.dom.erase r.node
              lookup := st.lookup.filter fun kv => kv.1 ≠ k } from by
          simp [eachRemove, hk]]
        exact ih used _

theorem eachRemove_find_kept : ∀ (entries : List (Nat × EachRec)) (used : List Nat)
    (st : EachSt) (k : Nat), k ∈ used →
    lookupFind (eachRemove entries used st).lookup k = lookupFind st.lookup k := by
  intro entries
  induction entries with
  | nil => intro used st k _; rfl
  | cons kv rest ih =>
    intro used st k hk
    match kv with
    | (k2, r2) =>
      by_cases hk2 : k2 ∈ used
      · rw [show eachRemove ((k2, r2) :: rest) used st = eachRemove rest used st from by
          simp [eachRemove, hk2]]
        exact ih used st k hk
      · rw [show eachRemove ((k2, r2) :: rest) used st = eachRemove rest used
            { st with
              dom := st.dom.erase r2.node
              lookup := st.lookup.filter fun kv => kv.1 ≠ k2 } from by
          simp [eachRemove, hk2]]
        rw [ih used _ k hk]
        exact filter_find_other _ _ _ (fun he => hk2 (he ▸ hk))

theorem eachRemove_find_removed : ∀ (entries : List (Nat × EachRec)) (used : List Nat)
    (st : EachSt) (k : Nat), k ∉ used →
    (k ∈ entries.map (fun kv => kv.1) ∨ lookupFind st.lookup k = none) →
    lookupFind (eachRemove entries used st).lookup k = none := by
  intro entries
  induction entries with
  | nil =>
    intro used st k _ hd
    rcases hd with h1 | h2
    · simp at h1
    · exact h2
  | cons kv rest ih =>
    intro used st k hku hd
    match kv with
    | (k2, r2) =>
      by_cases hk2 : k2 ∈ used
      · rw [show eachRemove ((k2, r2) :: rest) used st = eachRemove rest used st from by
          simp [eachRemove, hk2]]
        apply ih used st k hku
        rcases hd with h1 | h2
        · rcases (by simpa using h1 : k = k2 ∨ k ∈ rest.map fun kv => kv.1) with he | hm
          · exact absurd (he ▸ hk2) hku
          · exact Or.inl hm
        · exact Or.inr h2
      · rw [show eachRemove ((k2, r2) :: rest) used st = eachRemove rest used
            { st with
              dom := st.dom.erase r2.node
              lookup := st.lookup.filter fun kv => kv.1 ≠ k2 } from by
          simp [eachRemove, hk2]]
        by_cases hkk : k = k2
        · apply ih used _ k hku
          right
          show lookupFind (st.lookup.filter fun kv => kv.1 ≠ k2) k = none
          rw [hkk]
          exact filter_find_self _ _
        · apply ih used _ k hku
          rcases hd with h1 | h2
          · rcases (by simpa using h1 : k = k2 ∨ k ∈ rest.map fun kv => kv.1) with he | hm
            · exact absurd he hkk
            · exact Or.inl hm
          · right
            show lookupFind (st.lookup.filter fun kv => kv.1 ≠ k2) k = none
            rw [filter_find_other _ _ _ hkk]
            exact h2

theorem eachRemove_dom_sublist : ∀ (entries : List (Nat × EachRec)) (used : List Nat)
    (st : EachSt), (eachRemove entries used st).dom.Sublist st.dom := by
  intro entries
  induction entries with
  | nil => intro used st; exact List.Sublist.refl _
  | cons kv rest ih =>
    intro used st
    match kv with
    | (k2, r2) =>
      by_cases hk2 : k2 ∈ used
      · rw [show eachRemove ((k2, r2) :: rest) used st = eachRemove rest used st from by
          simp [eachRemove, hk2]]
        exact ih used st
      · rw [show eachRemove ((k2, r2) :: rest) used st = eachRemove rest used
            { st with
              dom := st.dom.erase r2.node
              lookup := st.lookup.filter fun kv => kv.1 ≠ k2 } from by
          simp [eachRemove, hk2]]
        exact (ih used _).trans (List.erase_sublist _ _)

theorem eachRemove_node_removed : ∀ (entries : List (Nat × EachRec)) (used : List Nat)
    (st : EachSt) (k : Nat) (r0 : EachRec), (k, r0) ∈ entries → k ∉ used →
    st.dom.Nodup → r0.node ∉ (eachRemove entries used st).dom := by
  intro entries
  induction entries with
  | nil => intro used st k r0 hm; simp at hm
  | cons kv rest ih =>
    intro used st k r0 hm hku hnd
    match kv with
    | (k2, r2) =>
      rcases List.mem_cons.mp hm with he | hrest
      · have hk2 : k2 = k ∧ r2 = r0 := by
          have := he.symm
          rw [Prod.mk.injEq] at this
          exact ⟨this.1, this.2⟩
        rw [show eachRemove ((k2, r2) :: rest) used st = eachRemove rest used
            { st with
              dom := st.dom.erase r2.node
              lookup := st.lookup.filter fun kv => kv.1 ≠ k2 } from by
          simp [eachRemove, hk2.1 ▸ hku]]
        intro hmem
        have hsub := eachRemove_dom_sublist rest used
          { st with
            dom := st.dom.erase r2.node
            lookup := st.lookup.filter fun kv => kv.1 ≠ k2 }
        have : r0.node ∈ st.dom.erase r2.node := hsub.subset hmem
        rw [hk2.2] at this
        exact (List.Nodup.not_mem_erase hnd) this
      · by_cases hk2 : k2 ∈ used
        · rw [show eachRemove ((k2, r2) :: rest) used st = eachRemove rest used st from by
            simp [eachRemove, hk2]]
          exact ih used st k r0 hrest hku hnd
        · rw [show eachRemove ((k2, r2) :: rest) used st = eachRemove rest used
              { st with
                dom := st.dom.erase r2.node
                lookup := st.lookup.filter fun kv => kv.1 ≠ k2 } from by
            simp [eachRemove, hk2]]
          exact ih used _ k r0 hrest hku (List.Nodup.erase _ hnd)

/-- The removal pass only erases nodes out of the survivor prefix: the fresh
block and the trailing anchor are untouched, and survivors keep their
relative order. -/
theorem eachRemove_dom_shape : ∀ (entries : List (Nat × EachRec)) (used : List Nat)
    (st : EachSt) (surv0 fresh : List DomN),
    st.dom = surv0 ++ fresh ++ [DomN.marker] →
    (∀ kv ∈ entries, kv.1 ∉ used → kv.2.node ∉ fresh ∧ kv.2.node ≠ DomN.marker) →
    ∃ surv, (eachRemove entries used st).dom = surv ++ fresh ++ [DomN.marker] ∧
      surv.Sublist surv0 := by
  intro entries
  induction entries with
  | nil =>
    intro used st surv0 fresh hdom _
    exact ⟨surv0, hdom, List.Sublist.refl _⟩
  | cons kv rest ih =>
    intro used st surv0 fresh hdom hn
    match kv with
    | (k2, r2) =>
      by_cases hk2 : k2 ∈ used
      · rw [show eachRemove ((k2, r2) :: rest) used st = eachRemove rest used st from by
          simp [eachRemove, hk2]]
        exact ih used st surv0 fresh hdom (fun kv h hk => hn kv (by simp [h]) hk)
      · rw [show eachRemove ((k2, r2) :: rest) used st = eachRemove rest used
            { st with
              dom := st.dom.erase r2.node
              lookup := st.lookup.filter fun kv => kv.1 ≠ k2 } from by
          simp [eachRemove, hk2]]
        have hno := hn (k2, r2) (by simp) hk2
        have herase : st.dom.erase r2.node = (surv0.erase r2.node) ++ fresh ++ [DomN.marker] := by
          rw [hdom]
          by_cases hmem : r2.node ∈ surv0
          · rw [List.append_assoc, List.erase_append_left _ hmem, List.append_assoc]
          · rw [List.append_assoc, List.erase_append_right _ hmem,
              List.erase_of_not_mem (by
                intro hc
                rcases List.mem_append.mp hc with h1 | h2
                · exact hno.1 h1
                · exact hno.2 (by simpa using h2)),
              List.erase_of_not_mem hmem, List.append_assoc]
        obtain ⟨surv, hs1, hs2⟩ := ih used
          { st with
            dom := st.dom.erase r2.node
            lookup := st.lookup.filter fun kv => kv.1 ≠ k2 }
          (surv0.erase r2.node) fresh (by simpa using herase)
          (fun kv h hk => hn kv (by simp [h]) hk)
        exact ⟨surv, hs1, hs2.trans (List.erase_sublist _ _)⟩

theorem lookupFind_mem (l : List (Nat × EachRec)) (k : Nat) (r : EachRec)
    (h : lookupFind l k = some r) : (k, r) ∈ l := by
  induction l with
  | nil => simp [lookupFind_nil] at h
  | cons kv rest ih =>
    rw [lookupFind_cons] at h
    by_cases hk : kv.1 = k
    · rw [if_pos hk] at h
      have h2 : kv.2 = r := by simpa using h
      have h3 : (k, r) = kv := by rw [← hk, ← h2]
      rw [h3]
      exact List.mem_cons_self _ _
    · rw [if_neg hk] at h
      exact List.mem_cons_of_mem _ (ih h)

/-- Claim C6 (amended): for a keyed transition of the `each` reconciler,
(1) every key present in both the old state and the new array keeps its
rendered node and only has its item/index signals updated in place (no
re-render); (2) the render function runs exactly for the keys of the new array
missing from the old state, in array order; (3) every key present only in the
old state is dropped from the map and its node detached from the parent;
(4) surviving nodes keep their old relative order and every freshly rendered
node is inserted between them and the trailing anchor, in render order —
fresh nodes are *not* placed at their array position relative to survivors. -/
theorem claim_C6_keyed_reconciliation :
    ∀ (B : List Item) (st : EachSt) (pre : List DomN),
      (∀ it ∈ B, (Item.id it).isSome = true) →
      ((B.map itemKey).Nodup) →
      st.dom = pre ++ [DomN.marker] →
      DomN.marker ∉ pre →
      pre.Nodup →
      (∀ kv ∈ st.lookup, nodeBoundB kv.2.node st.nextId = true) →
      (∀ d ∈ pre, nodeBoundB d st.nextId = true) →
      (∀ j it r0, B.get? j = some it → lookupFind st.lookup (itemKey it) = some r0 →
        lookupFind (eachStep B st).lookup (itemKey it) = some ⟨it, j, r0.node⟩) ∧
      (((eachStep B st).renders.drop st.renders.length).map (fun e => itemKey e.2.1) =
        (B.filter fun it => (lookupFind st.lookup (itemKey it)).isNone).map itemKey) ∧
      (∀ k r0, lookupFind st.lookup k = some r0 → k ∉ B.map itemKey →
        lookupFind (eachStep B st).lookup k = none ∧ r0.node ∉ (eachStep B st).dom) ∧
      (∃ surv dnew, (eachStep B st).dom = surv ++ dnew ++ [DomN.marker] ∧
        surv.Sublist pre ∧
        dnew = ((eachStep B st).renders.drop st.renders.length).map
          (fun e => DomN.node e.1)) := by
  intro B st pre hids hnd hdom hm hpnd hlkB hpreB
  obtain ⟨d, hd1, hd2, hd3, hd4, hd5, hd6, hd7⟩ :=
    eachUpd_master B 0 [] st pre hids hnd hdom hm
  have hstep : eachStep B st =
      eachRemove (eachUpd B 0 [] st).1.lookup (eachUpd B 0 [] st).2 (eachUpd B 0 [] st).1 :=
    rfl
  have husedB : ∀ k, k ∈ (eachUpd B 0 [] st).2 ↔ k ∈ B.map itemKey := by
    intro k
    rw [hd7]
    simp
  have hinj : Function.Injective DomN.node := by
    intro a b h
    injection h
  have hfreshGe : ∀ x ∈ (d.map fun e => DomN.node e.1), ∀ nid, x = DomN.node nid →
      st.nextId ≤ nid := by
    intro x hx nid hxe
    rw [List.mem_map] at hx
    obtain ⟨e, he, heq⟩ := hx
    have h3 := (hd3 e he).1
    rw [hxe] at heq
    have he1 : e.1 = nid := hinj heq
    omega
  have hdisj : ∀ x ∈ pre, x ∉ ((d.map fun e => DomN.node e.1) ++ [DomN.marker]) := by
    intro x hx hc
    have hb := hpreB x hx
    rcases List.mem_append.mp hc with h1 | h2
    · match x with
      | DomN.marker => simp [nodeBoundB] at hb
      | DomN.node nid =>
        have := hfreshGe _ h1 nid rfl
        simp [nodeBoundB] at hb
        omega
    · rw [List.mem_singleton] at h2
      exact hm (h2 ▸ hx)
  have hdmapnd : (d.map fun e => DomN.node e.1).Nodup := by
    rw [show (fun (e : Nat × Item × Nat) => DomN.node e.1) =
      (DomN.node ∘ fun e => e.1) from rfl, ← List.map_map]
    exact hd5.map hinj
  have hdomnd : (eachUpd B 0 [] st).1.dom.Nodup := by
    rw [hd2, List.append_assoc, List.nodup_append]
    refine ⟨hpnd, ?_, ?_⟩
    · rw [List.nodup_append]
      refine ⟨hdmapnd, List.nodup_singleton _, ?_⟩
      intro x hx
      rw [List.mem_singleton]
      rw [List.mem_map] at hx
      obtain ⟨e, he, heq⟩ := hx
      rw [← heq]
      simp
    · intro x hx
      exact hdisj x hx
  refine ⟨?_, ?_, ?_, ?_⟩
  · -- (1) shared keys: node kept, signals updated
    intro j it r0 hj hfind
    have hkmem : itemKey it ∈ (eachUpd B 0 [] st).2 := by
      rw [husedB]
      exact List.mem_map_of_mem _ (List.get?_mem hj)
    rw [hstep, eachRemove_find_kept _ _ _ _ hkmem]
    have := eachUpd_find_updated B 0 [] st j it r0 hids hnd hj hfind
    simpa using this
  · -- (2) renders are exactly the new keys, in order
    have hr : (eachStep B st).renders = st.renders ++ d := by
      rw [hstep, (eachRemove_renders _ _ _).1, hd1]
    rw [hr, List.drop_left, hd6]
  · -- (3) stale keys: dropped and detached
    intro k r0 hfind hknot
    have hknotused : k ∉ (eachUpd B 0 [] st).2 := by
      rw [husedB]
      exact hknot
    have hfind1 : lookupFind (eachUpd B 0 [] st).1.lookup k = some r0 :=
      (eachUpd_find_other B 0 [] st k hids hknot).symm ▸ hfind
    constructor
    · rw [hstep]
      apply eachRemove_find_removed _ _ _ _ hknotused
      left
      exact List.mem_map_of_mem _ (lookupFind_mem _ _ _ hfind1)
    · rw [hstep]
      exact eachRemove_node_removed _ _ _ k r0 (lookupFind_mem _ _ _ hfind1)
        hknotused hdomnd
  · -- (4) amended order
    have hcond : ∀ kv ∈ (eachUpd B 0 [] st).1.lookup, kv.1 ∉ (eachUpd B 0 [] st).2 →
        kv.2.node ∉ (d.map fun e => DomN.node e.1) ∧ kv.2.node ≠ DomN.marker := by
      intro kv hkv hku
      have hknot : kv.1 ∉ B.map itemKey := fun h => hku ((husedB kv.1).mpr h)
      have hold : kv ∈ st.lookup := eachUpd_mem_other B 0 [] st kv hids hkv hknot
      have hb := hlkB kv hold
      match hx : kv.2.node with
      | DomN.marker => rw [hx] at hb; simp [nodeBoundB] at hb
      | DomN.node nid =>
        rw [hx] at hb
        simp [nodeBoundB] at hb
        constructor
        · intro hc
          have := hfreshGe _ hc nid rfl
          omega
        · simp
    obtain ⟨surv, hs1, hs2⟩ := eachRemove_dom_shape (eachUpd B 0 [] st).1.lookup
      (eachUpd B 0 [] st).2 (eachUpd B 0 [] st).1 pre (d.map fun e => DomN.node e.1)
      hd2 hcond
    refine ⟨surv, d.map fun e => DomN.node e.1, ?_, hs2, ?_⟩
    · rw [hstep]
      exact hs1
    · have hr : (eachStep B st).renders = st.renders ++ d := by
        rw [hstep, (eachRemove_renders _ _ _).1, hd1]
      rw [hr, List.drop_left]

/-- Claim C6 counterexample: transitioning [id 1, id 2] → [id 3, id 2], the
fresh node for id 3 is rendered and inserted immediately before the anchor,
i.e. AFTER the surviving node for id 2 — the DOM order is [node 2, node 3],
not the claimed array-relative order [node 3, node 2].  (The records confirm
node 3 belongs to key 3, listed first in the new array, and node 2 to the
reused key 2.) -/
theorem claim_C6_counterexample :
    (eachStep demoBrev (eachInit demoA)).dom =
        [DomN.node 2, DomN.node 3, DomN.marker] ∧
      (eachStep demoBrev (eachInit demoA)).dom ≠
        [DomN.node 3, DomN.node 2, DomN.marker] ∧
      lookupFind (eachStep demoBrev (eachInit demoA)).lookup 3 =
        some ⟨⟨some 3, "c"⟩, 0, DomN.node 3⟩ ∧
      lookupFind (eachStep demoBrev (eachInit demoA)).lookup 2 =
        some ⟨⟨some 2, "b"⟩, 1, DomN.node 2⟩ := by
  refine ⟨rfl, ?_, rfl, rfl⟩
  intro h
  rw [show (eachStep demoBrev (eachInit demoA)).dom =
    [DomN.node 2, DomN.node 3, DomN.marker] from rfl] at h
  simp at h

/-- Witness for claim C6 on the spec's concrete scenario
`[{id 1},{id 2}] → [{id 2},{id 3}]`: the record for key 2 keeps node 2 with
its index signal updated to 0. -/
theorem claim_C6_witness :
    lookupFind (eachStep demoB (eachInit demoA)).lookup 2 =
      some ⟨⟨some 2, "b"⟩, 0, DomN.node 2⟩ :=
  (claim_C6_keyed_reconciliation demoB (eachInit demoA) [DomN.node 1, DomN.node 2]
    (by decide) (by decide) rfl (by decide) (by decide) (by decide) (by decide)).1
    0 ⟨some 2, "b"⟩ ⟨⟨some 2, "b"⟩, 1, DomN.node 2⟩ rfl rfl
